import Mathlib

/-!
Verification of the duplicate-combiner engine (src/app.py).

Text is modelled as `List Char`.  Python (ASCII) whitespace, `str.strip`,
`str.lower`, and the three anchored regular expressions used by
`normalize_subject` are embedded as executable functions on `List Char`.
Loops of the form `while True: n = RE.sub("", s); if n == s: break;
s = n.strip()` are embedded with an explicit fuel argument equal to the
string length; every regex substitution strictly shortens the string, so
the fuel never runs out (proved below where needed).
-/

/-- Python ASCII whitespace, the characters matched by `\s` and stripped by
`str.strip` on the ASCII plane (model decision: the titles handled by the
program are ASCII; Unicode-only whitespace is not modelled). -/
def isPySpace (c : Char) : Bool :=
  c = ' ' || c = '\t' || c = '\n' || c = '\x0d' || c = '\x0b' || c = '\x0c'

/-- Model of Python `str.lower` on one character (ASCII range, as above):
each of the 26 uppercase letters maps to its lowercase form, everything else
is unchanged. -/
def lowerChar (c : Char) : Char :=
  match c with
  | 'A' => 'a' | 'B' => 'b' | 'C' => 'c' | 'D' => 'd' | 'E' => 'e' | 'F' => 'f'
  | 'G' => 'g' | 'H' => 'h' | 'I' => 'i' | 'J' => 'j' | 'K' => 'k' | 'L' => 'l'
  | 'M' => 'm' | 'N' => 'n' | 'O' => 'o' | 'P' => 'p' | 'Q' => 'q' | 'R' => 'r'
  | 'S' => 's' | 'T' => 't' | 'U' => 'u' | 'V' => 'v' | 'W' => 'w' | 'X' => 'x'
  | 'Y' => 'y' | 'Z' => 'z'
  | _ => c

/-- Model of Python `str.strip()`: drop whitespace from both ends. -/
def pyStrip (s : List Char) : List Char :=
  (s.dropWhile isPySpace).rdropWhile isPySpace

/-- Characters removed from the end of the subject by `re.sub(r"[-:|]+$", "", s)`. -/
def isTrailPunct (c : Char) : Bool :=
  c = '-' || c = ':' || c = '|'

/-- Model of `re.sub(r"[-:|]+$", "", s)`: remove the maximal trailing run of
the characters `-`, `:`, `|`. -/
def dropTrailPunct (s : List Char) : List Char :=
  s.rdropWhile isTrailPunct

/-- Opening characters of the class `[\(\[\{]` in `_TRAILING_PARENS_RE`. -/
def isOpenB (c : Char) : Bool :=
  c = '(' || c = '[' || c = '\x7b'

/-- Closing characters of the class `[\)\]\}]` in `_TRAILING_PARENS_RE`. -/
def isCloseB (c : Char) : Bool :=
  c = ')' || c = ']' || c = '\x7d'

/-- Model of `re.sub(r"\s+", " ", s)`: replace every maximal whitespace run
by a single space. -/
def collapseWs : List Char → List Char
  | [] => []
  | [c] => if isPySpace c then [' '] else [c]
  | c :: d :: rest =>
    if isPySpace c && isPySpace d then collapseWs (d :: rest)
    else (if isPySpace c then ' ' else c) :: collapseWs (d :: rest)

/-- One substitution of `_BRACKET_TAG_RE = ^\s*\[[^\]]+\]\s*`: `none` when the
regex does not match, otherwise the string with the (unique, anchored) match
removed.  The inner class `[^\]]+` is the maximal nonempty run of
non-`]` characters. -/
def bracketTagSub (s : List Char) : Option (List Char) :=
  match s.dropWhile isPySpace with
  | '[' :: rest =>
    let inner := rest.takeWhile (fun c => ¬ (c = ']'))
    match rest.dropWhile (fun c => ¬ (c = ']')) with
    | ']' :: tail => if inner.isEmpty then none else some (tail.dropWhile isPySpace)
    | _ => none
  | _ => none

/-- The reply/forward tokens of `_PREFIX_RE`, in the alternation order of the
source pattern `(re|fw|fwd|aw|sv|rv|ref|res)`. -/
def replyTokens : List (List Char) :=
  [['r', 'e'], ['f', 'w'], ['f', 'w', 'd'], ['a', 'w'], ['s', 'v'], ['r', 'v'],
   ['r', 'e', 'f'], ['r', 'e', 's']]

/-- Case-insensitive literal match of `tok` at the front of `s` (the
`re.IGNORECASE` flag of `_PREFIX_RE`); returns the remainder on success. -/
def stripTokenCI : List Char → List Char → Option (List Char)
  | [], s => some s
  | _ :: _, [] => none
  | c :: tok, d :: s => if lowerChar d = lowerChar c then stripTokenCI tok s else none

/-- After a reply token, `_PREFIX_RE` requires `\s*[:\]]\s*`: optional
whitespace, then `:` or `]`, then optional whitespace.  Returns the remainder
after the whole iteration on success. -/
def punctAfterToken (s : List Char) : Option (List Char) :=
  match s.dropWhile isPySpace with
  | c :: rest => if c = ':' || c = ']' then some (rest.dropWhile isPySpace) else none
  | [] => none

/-- One alternative of one iteration of `_PREFIX_RE`: the token, then
`\s*[:\]]\s*`. -/
def tryToken (tok : List Char) (s : List Char) : Option (List Char) :=
  match stripTokenCI tok s with
  | some r => punctAfterToken r
  | none => none

/-- First reply-token alternative that matches at the front of `s`, in the
alternation order of the source pattern (regex backtracking tries the
alternatives left to right). -/
def firstTokenHit : List (List Char) → List Char → Option (List Char)
  | [], _ => none
  | tok :: toks, s =>
    match tryToken tok s with
    | some r => some r
    | none => firstTokenHit toks s

/-- One iteration of the `+`-group of `_PREFIX_RE` at the front of `s`. -/
def prefixIter (s : List Char) : Option (List Char) :=
  firstTokenHit replyTokens s

/-- Greedy repetition of `prefixIter` (the `+` of `_PREFIX_RE`); the fuel is
set to the string length by the caller, which suffices because every
iteration strictly shortens the string. -/
def prefixIters : Nat → List Char → List Char
  | 0, s => s
  | fuel + 1, s =>
    match prefixIter s with
    | none => s
    | some r => prefixIters fuel r

/-- One substitution of `_PREFIX_RE = ^\s*((re|fw|fwd|aw|sv|rv|ref|res)\s*[:\]]\s*)+`
(case-insensitive): `none` when the regex does not match, otherwise `s` with
the anchored match removed. -/
def prefixReSub (s : List Char) : Option (List Char) :=
  match prefixIter (s.dropWhile isPySpace) with
  | none => none
  | some r => some (prefixIters r.length r)

/-- Does `_TRAILING_PARENS_RE` match starting exactly at the opener that
begins `s`?  Requires: an opening bracket, then (automatically) no closer up
to the first closer, then only whitespace to the end of the string. -/
def trailQualAt (s : List Char) : Bool :=
  match s with
  | c :: rest =>
    isOpenB c &&
      (match rest.dropWhile (fun d => ¬ isCloseB d) with
       | d :: tail => isCloseB d && tail.all isPySpace
       | [] => false)
  | [] => false

/-- Scan for the leftmost opener at which `_TRAILING_PARENS_RE` matches; on a
hit the remainder of the substitution is the already-scanned part with its
trailing whitespace removed (the leading `\s*` of the pattern).  `seen` holds
the scanned part in reverse. -/
def trailQualScan (seen : List Char) : List Char → Option (List Char)
  | [] => none
  | c :: rest =>
    if trailQualAt (c :: rest) then some (seen.dropWhile isPySpace).reverse
    else trailQualScan (c :: seen) rest

/-- One substitution of `_TRAILING_PARENS_RE = \s*[\(\[\{][^\)\]\}]*[\)\]\}]\s*$`:
`none` when the regex does not match, otherwise `s` with the leftmost
(and only) match removed. -/
def trailQualSub (s : List Char) : Option (List Char) :=
  trailQualScan [] s

/-- The `while True` loop over `_BRACKET_TAG_RE.sub` in `normalize_subject`:
substitute and strip until the regex no longer matches. -/
def bracketLoopF : Nat → List Char → List Char
  | 0, s => s
  | fuel + 1, s =>
    match bracketTagSub s with
    | none => s
    | some n => bracketLoopF fuel (pyStrip n)

/-- The `while True` loop over `_PREFIX_RE.sub` in `normalize_subject`. -/
def prefixLoopF : Nat → List Char → List Char
  | 0, s => s
  | fuel + 1, s =>
    match prefixReSub s with
    | none => s
    | some n => prefixLoopF fuel (pyStrip n)

/-- The `while True` loop over `_TRAILING_PARENS_RE.sub` in `normalize_subject`. -/
def trailLoopF : Nat → List Char → List Char
  | 0, s => s
  | fuel + 1, s =>
    match trailQualSub s with
    | none => s
    | some n => trailLoopF fuel (pyStrip n)

/-- `bracketLoopF` with enough fuel to reach the fixed point. -/
def bracketLoop (s : List Char) : List Char :=
  bracketLoopF s.length s

/-- `prefixLoopF` with enough fuel to reach the fixed point. -/
def prefixLoop (s : List Char) : List Char :=
  prefixLoopF s.length s

/-- `trailLoopF` with enough fuel to reach the fixed point. -/
def trailLoop (s : List Char) : List Char :=
  trailLoopF s.length s

/-- Model of `normalize_subject` (src/app.py lines 130-156): strip, strip
leading bracketed tags to a fixed point, then leading reply/forward prefixes
to a fixed point, then trailing parenthesised qualifiers to a fixed point,
collapse whitespace, drop a trailing run of `-:|`, strip, lower-case. -/
def normalize_subject (s : List Char) : List Char :=
  if s.isEmpty then [] else
  let s1 := pyStrip s
  let s2 := bracketLoop s1
  let s3 := prefixLoop s2
  let s4 := trailLoop s3
  let s5 := pyStrip (collapseWs s4)
  let s6 := pyStrip (dropTrailPunct s5)
  s6.map lowerChar

/-!
Grouping (src/app.py lines 159-190), mode selection (lines 410-436), the
consolidation executor (lines 441-489 with `create_subitems`, `move_items`,
`archive_items`) and the retry wrapper (lines 75-97).

An `Item` carries the already-parsed creation timestamp: the `ts` helper of
`group_items` parses the ISO string with a fallback of 0 and is external
date-time plumbing; all claims quantify over the resulting integer.
Remote calls are modelled by oracles in `Env` / `CreateOracle`: the remote
API stores the names it is given verbatim, and the semantic clusterer is an
external embeddings-based computation (floating-point vectors), opaque to
every claim.
-/

/-- Work item as fetched from the board (id already a string, timestamp
already parsed). -/
structure Item where
  id : String
  name : List Char
  created_ts : Int
  group_id : String
deriving DecidableEq, Repr

/-- Shaped item of `group_items`: adds the normalized subject. -/
structure SItem where
  id : String
  name : List Char
  subject_norm : List Char
  created_ts : Int
deriving DecidableEq, Repr

/-- The shaping step of `group_items`. -/
def shapeItem (it : Item) : SItem :=
  ⟨it.id, it.name, normalize_subject it.name, it.created_ts⟩

/-- Candidate group: normalized subject, member ids oldest first, count. -/
structure GroupC where
  subject_norm : List Char
  item_ids_oldest_first : List String
  count : Nat
deriving DecidableEq, Repr

/-- Stable insertion used by `insSort`. -/
def insertLe (le : α → α → Bool) (a : α) : List α → List α
  | [] => [a]
  | b :: bs => if le a b then a :: b :: bs else b :: insertLe le a bs

/-- Stable ascending sort, the model of Python `list.sort`. -/
def insSort (le : α → α → Bool) : List α → List α
  | [] => []
  | a :: as => insertLe le a (insSort le as)

/-- Strict lexicographic order on character lists. -/
def ltChars : List Char → List Char → Bool
  | [], [] => false
  | [], _ :: _ => true
  | _ :: _, [] => false
  | a :: as, b :: bs => if a < b then true else if b < a then false else ltChars as bs

/-- Total preorder on character lists used as a sort key. -/
def leChars (a b : List Char) : Bool :=
  ¬ ltChars b a

/-- Total preorder on strings used as a sort key. -/
def leStr (a b : String) : Bool :=
  ¬ decide (b < a)

/-- Sort key of the members inside a group: `(created_at_ts, id)` ascending. -/
def memberLe (a b : SItem) : Bool :=
  if a.created_ts = b.created_ts then leStr a.id b.id else decide (a.created_ts < b.created_ts)

/-- Sort key of the grouped output: `(-count, subject_norm)` ascending, i.e.
count descending then subject ascending. -/
def groupLe (a b : GroupC) : Bool :=
  if a.count = b.count then leChars a.subject_norm b.subject_norm else decide (b.count < a.count)

/-- Subjects in first-insertion order (Python dicts preserve insertion
order; `seen` accumulates the already-emitted keys). -/
def firstKeys (seen : List (List Char)) : List SItem → List (List Char)
  | [] => []
  | x :: rest =>
    if x.subject_norm ∈ seen then firstKeys seen rest
    else x.subject_norm :: firstKeys (x.subject_norm :: seen) rest

/-- The members of one subject key, oldest first. -/
def membersOf (shaped : List SItem) (k : List Char) : List SItem :=
  insSort memberLe (shaped.filter (fun x => x.subject_norm = k))

/-- Model of `group_items` (src/app.py lines 159-190): groups keyed by
normalized subject with member ids oldest first, sorted by count descending
then subject ascending, plus the id-to-name map (a Python dict comprehension,
so for duplicate ids the last name wins — modelled by `lookupLast`). -/
def group_items (items : List Item) : List GroupC × List (String × List Char) :=
  let shaped := items.map shapeItem
  let grouped := (firstKeys [] shaped).map (fun k =>
    let arr := membersOf shaped k
    ⟨k, arr.map (fun x => x.id), arr.length⟩)
  (insSort groupLe grouped, shaped.map (fun x => (x.id, x.name)))

/-- Last-wins lookup in an association list (Python dict semantics for the
comprehension building `id_to_name`). -/
def lookupLast (m : List (String × List Char)) (k : String) : Option (List Char) :=
  (m.reverse.find? (fun p => p.1 == k)).map (fun p => p.2)

/-- Run configuration after the env/DB overlay has been resolved. -/
structure Config where
  grouping : String
  minCount : Nat
  maxGroups : Nat
  maxChildren : Nat
  afterAction : String
  moveGroupId : String
  openaiKey : String
deriving DecidableEq, Repr

/-- External collaborators of one run: the semantic clusterer (embeddings
provider plus greedy clustering — floating-point, opaque to all claims) and
the remote child-record listing per parent. -/
structure Env where
  aiCluster : List Item → List GroupC
  existingSubitems : String → List (List Char)

/-- Model of `ai_cluster_items` at the granularity the claims need: returns
`[]` without an embeddings credential, otherwise the clusterer's output on
exactly the items it was handed. -/
def ai_cluster_items (env : Env) (cfg : Config) (items : List Item) : List GroupC :=
  if cfg.openaiKey = "" then [] else env.aiCluster items

/-- Exact groups that pass the `MIN_COUNT` filter (the `candidates` /
`exact_first` list of `main`). -/
def exactCandidates (cfg : Config) (items : List Item) : List GroupC :=
  (group_items items).1.filter (fun g => cfg.minCount ≤ g.count)

/-- The `used_ids` set of the hybrid branch. -/
def hybridUsedIds (cfg : Config) (items : List Item) : List String :=
  (exactCandidates cfg items).foldl (fun acc g => acc ++ g.item_ids_oldest_first) []

/-- The leftover items fed to the semantic clusterer in hybrid mode. -/
def hybridLeftovers (cfg : Config) (items : List Item) : List Item :=
  items.filter (fun it => ¬ decide (it.id ∈ hybridUsedIds cfg items))

/-- The hybrid plan: exact groups first, semantic clusters of the leftovers
appended, truncated to `MAX_GROUPS`. -/
def hybridGroups (cfg : Config) (env : Env) (items : List Item) : List GroupC :=
  (exactCandidates cfg items ++ ai_cluster_items env cfg (hybridLeftovers cfg items)).take
    cfg.maxGroups

/-- The mode dispatch of `main` (lines 410-436): `if GROUPING == "exact" ...
elif GROUPING == "ai" ... else hybrid`. -/
def selectGroups (cfg : Config) (env : Env) (items : List Item) : List GroupC :=
  if cfg.grouping = "exact" then (exactCandidates cfg items).take cfg.maxGroups
  else if cfg.grouping = "ai" then (ai_cluster_items env cfg items).take cfg.maxGroups
  else hybridGroups cfg env items

/-- Model of Python `str.lower` (ASCII range) on strings. -/
def pyLowerStr (s : String) : String :=
  String.mk (s.data.map lowerChar)

/-- Model of `get_existing_subitem_names` (lines 283-287) applied to the raw
names returned by the remote listing: the set of stripped nonempty child
names (modelled as a list used only through membership). -/
def get_existing_subitem_names (raw : List (List Char)) : List (List Char) :=
  (raw.map pyStrip).filter (fun nm => ¬ nm.isEmpty)

/-- Model of `_sanitize_name` (lines 290-297): trim, substitute the fallback
when empty, hard-truncate to 255 characters. -/
def sanitize_name (name fallback : List Char) : List Char :=
  let nm := pyStrip name
  let nm2 := if nm.isEmpty then fallback else nm
  if 255 < nm2.length then nm2.take 255 else nm2

/-- Decimal rendering of a natural number as characters. -/
def natToChars (n : Nat) : List Char :=
  (toString n).toList

/-- The sanitize-and-drop-empties preamble of `create_subitems`: fallback for
position `i` is `"Item {i+1}"`. -/
def clean_names (names : List (List Char)) : List (List Char) :=
  (names.enum.map (fun p => sanitize_name p.2 ("Item ".toList ++ natToChars (p.1 + 1)))).filter
    (fun nm => ¬ nm.isEmpty)

/-- `l` split into chunks of `n`, with fuel (callers pass the length; every
step drops at least one element for `n ≥ 1`). -/
def chunksF (n : Nat) : Nat → List α → List (List α)
  | _, [] => []
  | 0, _ :: _ => []
  | fuel + 1, x :: xs => (x :: xs).take n :: chunksF n fuel ((x :: xs).drop n)

/-- `l` split into chunks of `n` (the batching of the mutation helpers). -/
def chunks (n : Nat) (l : List α) : List (List α) :=
  chunksF n l.length l

/-- Remote behaviour of the create mutations: whether the batched call for
chunk `i` succeeds, and whether the single-item fallback for name `j` of
chunk `i` succeeds.  Single-item failures are caught and logged by the
source, so they never propagate. -/
structure CreateOracle where
  batchOk : Nat → Bool
  singleOk : Nat → Nat → Bool

/-- Model of `create_subitems` (lines 300-347): sanitize, batch into chunks
of 20, fall back to single creates when a batch fails.  Returns the names of
the child records actually created remotely (the remote API stores the name
it is given verbatim). -/
def create_subitems (orc : CreateOracle) (names : List (List Char)) : List (List Char) :=
  let clean := clean_names names
  (chunks 20 clean).enum.flatMap (fun p =>
    if orc.batchOk p.1 then p.2
    else p.2.enum.filterMap (fun q => if orc.singleOk p.1 q.1 then some q.2 else none))

/-- The network mutations issued by `move_items` (lines 350-365): one call
per chunk of at most 5 ids. -/
def move_items_calls (ids : List String) : List (List String) :=
  if ids.isEmpty then [] else chunks 5 ids

/-- The network mutations issued by `archive_items` (lines 368-381): one call
per chunk of at most 10 ids. -/
def archive_items_calls (ids : List String) : List (List String) :=
  if ids.isEmpty then [] else chunks 10 ids

/-- The resolved display name of a child id in the pending computation:
`(id_to_name.get(cid, f"Item {cid}") or "")`. -/
def resolvedChildName (idToName : List (String × List Char)) (cid : String) : List Char :=
  match lookupLast idToName cid with
  | some nm => nm
  | none => ("Item " ++ cid).toList

/-- The `pending` list of `main` (lines 453-457): children whose stripped
resolved name is nonempty and not already among the existing child names. -/
def pendingOf (idToName : List (String × List Char)) (existing : List (List Char))
    (children : List String) : List (String × List Char) :=
  children.filterMap (fun cid =>
    let nm := pyStrip (resolvedChildName idToName cid)
    if ¬ nm.isEmpty && ¬ decide (nm ∈ existing) then some (cid, nm) else none)

/-- Mutable state accumulated over the group loop of `main`, including the
summary counters and the mutation calls issued. -/
structure RunState where
  total_created : Nat
  moved : Nat
  archived : Nat
  createCalls : List (String × List (List Char))
  moveCalls : List (List String)
  archiveCalls : List (List String)
  combined : List (List Char × List (List Char))
  movedNames : List (List Char)
  archivedNames : List (List Char)
deriving DecidableEq, Repr

/-- Initial run state. -/
def initRunState : RunState :=
  ⟨0, 0, 0, [], [], [], [], [], []⟩

/-- One iteration of the candidate-group loop of `main` (lines 441-489).
Groups with fewer than 2 member ids are skipped without side effects. -/
def stepGroup (cfg : Config) (env : Env) (idToName : List (String × List Char))
    (st : RunState) (g : GroupC) : RunState :=
  match g.item_ids_oldest_first with
  | [] => st
  | [_] => st
  | parent :: c1 :: crest =>
    let children := (c1 :: crest).take cfg.maxChildren
    let parentName := (lookupLast idToName parent).getD parent.toList
    let existing := get_existing_subitem_names (env.existingSubitems parent)
    let pending := pendingOf idToName existing children
    let namesToCreate := pending.map (fun p => p.2)
    let st1 :=
      if pending.isEmpty then st
      else { st with
        total_created := st.total_created + namesToCreate.length
        createCalls := st.createCalls ++ [(parent, namesToCreate)] }
    let existing2 := existing ++ namesToCreate
    let represented := pending.map (fun p => p.1) ++
      children.filter (fun cid => decide (pyStrip ((lookupLast idToName cid).getD []) ∈ existing2))
    let st2 :=
      if represented.isEmpty then st1
      else { st1 with
        combined := st1.combined ++ [(parentName, represented.map (resolvedChildName idToName))] }
    if represented.isEmpty then st2
    else if cfg.afterAction = "move" && ¬ cfg.moveGroupId.isEmpty then
      { st2 with
        moveCalls := st2.moveCalls ++ move_items_calls represented
        moved := st2.moved + represented.length
        movedNames := st2.movedNames ++ represented.map (resolvedChildName idToName) }
    else if cfg.afterAction = "archive" then
      { st2 with
        archiveCalls := st2.archiveCalls ++ archive_items_calls represented
        archived := st2.archived + represented.length
        archivedNames := st2.archivedNames ++ represented.map (resolvedChildName idToName) }
    else st2

/-- The candidate-group loop of `main`. -/
def runGroups (cfg : Config) (env : Env) (idToName : List (String × List Char))
    (groups : List GroupC) : RunState :=
  groups.foldl (stepGroup cfg env idToName) initRunState

/-- Structured run summary (the counters of `run_summary`). -/
structure RunSummary where
  processed_groups : Nat
  created_subitems : Nat
  moved_originals : Nat
  archived_originals : Nat
  state : RunState
deriving DecidableEq, Repr

/-- Model of `main` (lines 384-518): select candidate groups, run the group
loop, report the counters.  `processed_groups` is set to `len(groups)` after
the loop. -/
def runMain (cfg : Config) (env : Env) (items : List Item) : RunSummary :=
  let idToName := (group_items items).2
  let groups := selectGroups cfg env items
  let st := runGroups cfg env idToName groups
  ⟨groups.length, st.total_created, st.moved, st.archived, st⟩

/-- Result of one remote call: payload or error message. -/
inductive GqlOutcome (α : Type) where
  | ok (a : α)
  | err (msg : List Char)
deriving DecidableEq, Repr

/-- Substring test on character lists. -/
def containsSub (pat : List Char) : List Char → Bool
  | [] => pat.isEmpty
  | c :: rest => pat.isPrefixOf (c :: rest) || containsSub pat rest

/-- The transient-failure classification of `gql_with_retry` (lines 86-91). -/
def isTransientMsg (msg : List Char) : Bool :=
  containsSub "TooManyConcurrentRequestsException".toList msg ||
  containsSub "Failed to lock item id for graphql mutation".toList msg ||
  containsSub "status_code\x27: 429".toList msg ||
  containsSub "HTTP 429".toList msg

/-- Observable trace of the retry wrapper: how many calls were made, the
sleeps performed between attempts (in order, in time-units), and the final
outcome (`none` only when the loop runs zero times). -/
structure RetryTrace (α : Type) where
  calls : Nat
  sleeps : List ℚ
  result : Option (GqlOutcome α)
deriving DecidableEq

/-- The retry loop of `gql_with_retry` (lines 75-97): attempt the call; on a
transient error before the last attempt, sleep `delay + 0.1 * attempt`, then
double the delay capping at 5.0, and continue; otherwise re-raise.  `outcome`
gives the result of the `attempt`-th call; the fuel equals the remaining
loop iterations. -/
def retryAux (outcome : Nat → GqlOutcome α) (maxr : Nat) :
    Nat → ℚ → List ℚ → Nat → RetryTrace α
  | attempt, _, sleeps, 0 => ⟨attempt, sleeps.reverse, none⟩
  | attempt, delay, sleeps, rem + 1 =>
    match outcome attempt with
    | .ok a => ⟨attempt + 1, sleeps.reverse, some (.ok a)⟩
    | .err m =>
      if isTransientMsg m && decide (attempt < maxr - 1) then
        retryAux outcome maxr (attempt + 1) (min (delay * 2) 5)
          ((delay + (attempt : ℚ) / 10) :: sleeps) rem
      else ⟨attempt + 1, sleeps.reverse, some (.err m)⟩

/-- Model of `gql_with_retry` with `max_retries` attempts total, starting
delay 0.5. -/
def gql_with_retry (outcome : Nat → GqlOutcome α) (maxr : Nat) : RetryTrace α :=
  retryAux outcome maxr 0 (1 / 2) [] maxr

/-- The names actually created for one candidate group: `create_subitems`
applied to the pending names computed by the diff of `main` (lines 449-462). -/
def createdForGroup (orc : CreateOracle) (idToName : List (String × List Char))
    (existing : List (List Char)) (children : List String) : List (List Char) :=
  create_subitems orc ((pendingOf idToName existing children).map (fun p => p.2))

/-- The pending names computed for one candidate group by the loop of
`main` (empty for groups with fewer than two member ids). -/
def groupPending (cfg : Config) (env : Env) (idToName : List (String × List Char))
    (g : GroupC) : List (String × List Char) :=
  match g.item_ids_oldest_first with
  | [] => []
  | [_] => []
  | parent :: c1 :: crest =>
    pendingOf idToName (get_existing_subitem_names (env.existingSubitems parent))
      ((c1 :: crest).take cfg.maxChildren)

/-- The string after a fixed point of `_PREFIX_RE` stripping. -/
def prefixFree (s : List Char) : Prop :=
  prefixReSub s = none

/-- A string in which every whitespace character is a single space not
followed by whitespace — the shape produced by `collapseWs`. -/
def collapsedB : List Char → Bool
  | [] => true
  | c :: l =>
    (!isPySpace c ||
      (c = ' ' && (match l.head? with | some d => !isPySpace d | none => true))) &&
    collapsedB l

/-!  Concrete inputs used by witnesses and counterexamples. -/

/-- Environment with no clusters and no existing child records. -/
def emptyEnv : Env :=
  ⟨fun _ => [], fun _ => []⟩

/-- Remote behaviour in which every create call succeeds. -/
def okOracle : CreateOracle :=
  ⟨fun _ => true, fun _ _ => true⟩

/-- Remote behaviour in which every create call fails. -/
def failOracle : CreateOracle :=
  ⟨fun _ => false, fun _ _ => false⟩

/-- A call outcome that always fails with a rate-limit message. -/
def out429 (n : Nat) : GqlOutcome Unit :=
  .err ("HTTP 429 attempt ".toList ++ natToChars n)

/-- Classifier used in the retry hypothesis: the outcome is an error whose
message contains `"HTTP 429"`. -/
def isErr429 (o : GqlOutcome α) : Bool :=
  match o with
  | .err m => containsSub "HTTP 429".toList m
  | .ok _ => false

/-- Two items with the same id but different subjects (a degenerate input
exercising the grouping partition claim). -/
def itemsDupId : List Item :=
  [⟨"1", "a".toList, 0, "g"⟩, ⟨"1", "b".toList, 0, "g"⟩]

/-- Three items: two sharing a subject, one singleton. -/
def itemsTriple : List Item :=
  [⟨"1", "a".toList, 0, "g"⟩, ⟨"2", "a".toList, 1, "g"⟩, ⟨"3", "b".toList, 2, "g"⟩]

/-- A hybrid configuration with the source defaults. -/
def cfgHybrid : Config :=
  ⟨"hybrid", 2, 8, 25, "none", "", ""⟩

/-- An existing child record whose name is 255 characters long. -/
def existingTrunc : List (List Char) :=
  [List.replicate 255 'A']

/-- Id-to-name map giving child `"c"` a 256-character name. -/
def idToNameTrunc : List (String × List Char) :=
  [("p", "P".toList), ("c", List.replicate 256 'A')]

example : normalize_subject "RE: Hello   World (Draft)".toList = "hello world".toList := by decide
example : normalize_subject "(x)-".toList = "(x)".toList := by decide
example : normalize_subject "(x)".toList = [] := by decide
example : normalize_subject "re: [x] y".toList = "[x] y".toList := by decide
example : normalize_subject "[x] y".toList = "y".toList := by decide
example : normalize_subject "a- :".toList = "a-".toList := by decide
example : normalize_subject "ref] x".toList = "x".toList := by decide
example : normalize_subject "".toList = [] := by decide
example : normalize_subject "re:".toList = [] := by decide

/-!  Claim C10: unrecognized GROUPING values select hybrid. -/

/-- Claim C10: any GROUPING configuration value other than `"exact"` or
`"ai"` (after lowercasing, so including misspellings and arbitrary strings)
selects the hybrid merge strategy; the dispatch has no error branch. -/
theorem grouping_dispatch_defaults_to_hybrid (cfg : Config) (env : Env) (items : List Item)
    (h1 : pyLowerStr cfg.grouping ≠ "exact") (h2 : pyLowerStr cfg.grouping ≠ "ai") :
    selectGroups cfg env items = hybridGroups cfg env items := by
  have hx : cfg.grouping ≠ "exact" := by
    intro h
    apply h1
    rw [h]
    decide
  have ha : cfg.grouping ≠ "ai" := by
    intro h
    apply h2
    rw [h]
    decide
  simp [selectGroups, hx, ha]

/-- Witness for C10 at the misspelled value `"Hybird"`. -/
theorem grouping_dispatch_defaults_to_hybrid_witness :
    (pyLowerStr "Hybird" ≠ "exact" ∧ pyLowerStr "Hybird" ≠ "ai") ∧
      selectGroups ⟨"Hybird", 2, 8, 25, "none", "", ""⟩ emptyEnv [] =
        hybridGroups ⟨"Hybird", 2, 8, 25, "none", "", ""⟩ emptyEnv [] :=
  ⟨by decide,
   grouping_dispatch_defaults_to_hybrid ⟨"Hybird", 2, 8, 25, "none", "", ""⟩ emptyEnv []
     (by decide) (by decide)⟩

/-!  Claim C3: retry behaviour on persistent HTTP 429 errors. -/

/-- Claim C3: when every attempt fails with a message containing
`"HTTP 429"`, the retry wrapper makes exactly 5 calls (`max_retries`),
sleeping between attempts with the strictly increasing delays
`min(0.5 * 2^k, 5.0) + 0.1 * k`, and finally re-raises the last error. -/
theorem gql_with_retry_http429 (outcome : Nat → GqlOutcome α)
    (h : ∀ i, i < 5 → isErr429 (outcome i) = true) :
    (gql_with_retry outcome 5).calls = 5 ∧
    (gql_with_retry outcome 5).sleeps =
      (List.range 4).map (fun (k : Nat) => min ((1 / 2 : ℚ) * (2 : ℚ) ^ k) 5 + (k : ℚ) / 10) ∧
    List.Chain' (fun a b => a < b) (gql_with_retry outcome 5).sleeps ∧
    (gql_with_retry outcome 5).result = some (outcome 4) := by
  have h0 := h 0 (by norm_num)
  have h1 := h 1 (by norm_num)
  have h2 := h 2 (by norm_num)
  have h3 := h 3 (by norm_num)
  have h4 := h 4 (by norm_num)
  obtain ⟨m0, e0⟩ : ∃ m, outcome 0 = .err m := by
    cases ho : outcome 0 <;> simp [ho, isErr429] at h0 ⊢
  obtain ⟨m1, e1⟩ : ∃ m, outcome 1 = .err m := by
    cases ho : outcome 1 <;> simp [ho, isErr429] at h1 ⊢
  obtain ⟨m2, e2⟩ : ∃ m, outcome 2 = .err m := by
    cases ho : outcome 2 <;> simp [ho, isErr429] at h2 ⊢
  obtain ⟨m3, e3⟩ : ∃ m, outcome 3 = .err m := by
    cases ho : outcome 3 <;> simp [ho, isErr429] at h3 ⊢
  obtain ⟨m4, e4⟩ : ∃ m, outcome 4 = .err m := by
    cases ho : outcome 4 <;> simp [ho, isErr429] at h4 ⊢
  have t0 : isTransientMsg m0 = true := by
    rw [e0] at h0
    simp only [isErr429] at h0
    simp only [isTransientMsg, Bool.or_eq_true]
    exact Or.inr h0
  have t1 : isTransientMsg m1 = true := by
    rw [e1] at h1
    simp only [isErr429] at h1
    simp only [isTransientMsg, Bool.or_eq_true]
    exact Or.inr h1
  have t2 : isTransientMsg m2 = true := by
    rw [e2] at h2
    simp only [isErr429] at h2
    simp only [isTransientMsg, Bool.or_eq_true]
    exact Or.inr h2
  have t3 : isTransientMsg m3 = true := by
    rw [e3] at h3
    simp only [isErr429] at h3
    simp only [isTransientMsg, Bool.or_eq_true]
    exact Or.inr h3
  have etrace : gql_with_retry outcome 5 =
      ⟨5, [1 / 2, 11 / 10, 11 / 5, 43 / 10], some (.err m4)⟩ := by
    simp only [gql_with_retry, retryAux, e0, e1, e2, e3, e4, t0, t1, t2, t3]
    norm_num [min_def]
  refine ⟨by rw [etrace], ?_, ?_, ?_⟩
  · rw [etrace]
    show ([1 / 2, 11 / 10, 11 / 5, 43 / 10] : List ℚ) = _
    norm_num [List.range_succ, min_def]
  · rw [etrace]
    show List.Chain' (fun a b => a < b) ([1 / 2, 11 / 10, 11 / 5, 43 / 10] : List ℚ)
    norm_num [List.chain'_cons, List.chain'_singleton]
  · rw [etrace, e4]

/-- Witness for C3: every call answers with an HTTP 429 error. -/
theorem gql_with_retry_http429_witness :
    (∀ i, i < 5 → isErr429 (out429 i) = true) ∧
    (gql_with_retry out429 5).calls = 5 ∧
    (gql_with_retry out429 5).sleeps =
      (List.range 4).map (fun (k : Nat) => min ((1 / 2 : ℚ) * (2 : ℚ) ^ k) 5 + (k : ℚ) / 10) ∧
    List.Chain' (fun a b => a < b) (gql_with_retry out429 5).sleeps ∧
    (gql_with_retry out429 5).result = some (out429 4) :=
  ⟨by decide, gql_with_retry_http429 out429 (by decide)⟩

/-!  Claim C4: hybrid mode never feeds an exactly-grouped item to the clusterer. -/

/-- Elements of the initial accumulator survive a fold of appends. -/
theorem mem_foldl_append_init {β γ : Type} (f : β → List γ) (gs : List β) (init : List γ)
    (x : γ) (hx : x ∈ init) : x ∈ gs.foldl (fun acc g => acc ++ f g) init := by
  induction gs generalizing init with
  | nil => exact hx
  | cons g rest ih => exact ih _ (List.mem_append_left _ hx)

/-- Elements contributed by any list member appear in a fold of appends. -/
theorem mem_foldl_append {β γ : Type} (f : β → List γ) (gs : List β) (init : List γ)
    (b : β) (hb : b ∈ gs) (x : γ) (hx : x ∈ f b) :
    x ∈ gs.foldl (fun acc g => acc ++ f g) init := by
  induction gs generalizing init with
  | nil => cases hb
  | cons g rest ih =>
    cases hb with
    | head => exact mem_foldl_append_init f rest _ x (List.mem_append_right _ hx)
    | tail _ hb2 => exact ih _ hb2

/-- Claim C4: for every input and configuration, an item id appearing in the
exact-group portion of the hybrid plan (exact groups with count at least
MIN_COUNT) never belongs to an item passed to the semantic clusterer (the
leftovers). -/
theorem hybrid_exact_disjoint_from_leftovers (cfg : Config) (items : List Item)
    (g : GroupC) (hg : g ∈ exactCandidates cfg items)
    (idv : String) (hid : idv ∈ g.item_ids_oldest_first)
    (it : Item) (hit : it ∈ hybridLeftovers cfg items) :
    it.id ≠ idv := by
  intro he
  have hused : idv ∈ hybridUsedIds cfg items :=
    mem_foldl_append _ _ _ g hg idv hid
  have hfil := (List.mem_filter.mp hit).2
  rw [he] at hfil
  simp [hused] at hfil

/-- Witness for C4: two items grouped exactly, one leftover. -/
theorem hybrid_exact_disjoint_from_leftovers_witness :
    ((⟨"a".toList, ["1", "2"], 2⟩ : GroupC) ∈ exactCandidates cfgHybrid itemsTriple ∧
      "1" ∈ (⟨"a".toList, ["1", "2"], 2⟩ : GroupC).item_ids_oldest_first ∧
      (⟨"3", "b".toList, 2, "g"⟩ : Item) ∈ hybridLeftovers cfgHybrid itemsTriple) ∧
    (⟨"3", "b".toList, 2, "g"⟩ : Item).id ≠ "1" :=
  ⟨by decide,
   hybrid_exact_disjoint_from_leftovers cfgHybrid itemsTriple ⟨"a".toList, ["1", "2"], 2⟩
     (by decide) "1" (by decide) ⟨"3", "b".toList, 2, "g"⟩ (by decide)⟩

/-!  Claim C9: processed_groups counts selected groups, not consolidated ones. -/

/-- Claim C9: the summary's `processed_groups` equals the number of selected
candidate groups (which is at most MAX_GROUPS); groups with fewer than two
member ids are counted although they short-circuit without any side effect
(so it is not the number of groups actually consolidated). -/
theorem processed_groups_counts_selected :
    (∀ (cfg : Config) (env : Env) (items : List Item),
        (runMain cfg env items).processed_groups = (selectGroups cfg env items).length ∧
        (selectGroups cfg env items).length ≤ cfg.maxGroups) ∧
    (∀ (cfg : Config) (env : Env) (idToName : List (String × List Char)) (st : RunState)
        (g : GroupC), g.item_ids_oldest_first.length < 2 →
        stepGroup cfg env idToName st g = st) := by
  constructor
  · intro cfg env items
    refine ⟨rfl, ?_⟩
    unfold selectGroups hybridGroups
    split
    · exact List.length_take_le _ _
    · split
      · exact List.length_take_le _ _
      · exact List.length_take_le _ _
  · intro cfg env m st g hlt
    rcases h : g.item_ids_oldest_first with _ | ⟨a, _ | ⟨b, rest⟩⟩
    · simp [stepGroup, h]
    · simp [stepGroup, h]
    · rw [h] at hlt
      simp at hlt
      omega

/-- Witness for C9: a selected singleton group leaves the state untouched. -/
theorem processed_groups_counts_selected_witness :
    ((⟨"s".toList, ["1"], 1⟩ : GroupC).item_ids_oldest_first.length < 2) ∧
    stepGroup cfgHybrid emptyEnv [] initRunState ⟨"s".toList, ["1"], 1⟩ = initRunState :=
  ⟨by decide,
   processed_groups_counts_selected.2 cfgHybrid emptyEnv [] initRunState
     ⟨"s".toList, ["1"], 1⟩ (by decide)⟩

/-!  Claim C7: AFTER_ACTION=move with empty MOVE_GROUP_ID. -/

/-- With `AFTER_ACTION = "move"` and an empty `MOVE_GROUP_ID`, one loop
iteration behaves exactly as with no after-action at all. -/
theorem stepGroup_move_unset_eq_none (cfg : Config) (env : Env)
    (m : List (String × List Char)) (st : RunState) (g : GroupC)
    (h1 : cfg.afterAction = "move") (h2 : cfg.moveGroupId = "") :
    stepGroup cfg env m st g = stepGroup { cfg with afterAction := "none" } env m st g := by
  rcases hids : g.item_ids_oldest_first with _ | ⟨a, _ | ⟨b, rest⟩⟩
  · simp [stepGroup, hids]
  · simp [stepGroup, hids]
  · have he : ("" : String).isEmpty = true := rfl
    simp only [stepGroup, hids, h1, h2, he]
    norm_num
    split <;> rfl

/-- With `AFTER_ACTION = "move"` and an empty `MOVE_GROUP_ID`, one loop
iteration issues no relocate call and does not bump the moved counter. -/
theorem stepGroup_move_unset_no_moves (cfg : Config) (env : Env)
    (m : List (String × List Char)) (st : RunState) (g : GroupC)
    (h1 : cfg.afterAction = "move") (h2 : cfg.moveGroupId = "") :
    (stepGroup cfg env m st g).moveCalls = st.moveCalls ∧
    (stepGroup cfg env m st g).moved = st.moved := by
  rcases hids : g.item_ids_oldest_first with _ | ⟨a, _ | ⟨b, rest⟩⟩
  · simp [stepGroup, hids]
  · simp [stepGroup, hids]
  · have he : ("" : String).isEmpty = true := rfl
    simp only [stepGroup, hids, h1, h2, he]
    norm_num
    constructor <;> (split_ifs <;> rfl)

/-- Claim C7: when `AFTER_ACTION` is `"move"` and `MOVE_GROUP_ID` is empty,
the run issues zero relocate calls, the moved-originals counter stays 0, and
the whole run (consolidation included) is identical to a run with no
after-action. -/
theorem move_without_group_id (cfg : Config) (env : Env) (items : List Item)
    (h1 : cfg.afterAction = "move") (h2 : cfg.moveGroupId = "") :
    (runMain cfg env items).state.moveCalls = [] ∧
    (runMain cfg env items).moved_originals = 0 ∧
    runMain cfg env items = runMain { cfg with afterAction := "none" } env items := by
  have hfold : ∀ (gs : List GroupC) (m : List (String × List Char)) (st : RunState),
      (gs.foldl (stepGroup cfg env m) st).moveCalls = st.moveCalls ∧
      (gs.foldl (stepGroup cfg env m) st).moved = st.moved := by
    intro gs
    induction gs with
    | nil => intro m st; exact ⟨rfl, rfl⟩
    | cons g rest ih =>
      intro m st
      have hstep := stepGroup_move_unset_no_moves cfg env m st g h1 h2
      refine ⟨?_, ?_⟩
      · rw [List.foldl_cons, (ih m (stepGroup cfg env m st g)).1, hstep.1]
      · rw [List.foldl_cons, (ih m (stepGroup cfg env m st g)).2, hstep.2]
  have hsame : ∀ (gs : List GroupC) (m : List (String × List Char)) (st : RunState),
      gs.foldl (stepGroup cfg env m) st =
        gs.foldl (stepGroup { cfg with afterAction := "none" } env m) st := by
    intro gs
    induction gs with
    | nil => intro m st; rfl
    | cons g rest ih =>
      intro m st
      rw [List.foldl_cons, List.foldl_cons, ← stepGroup_move_unset_eq_none cfg env m st g h1 h2,
        ih m (stepGroup cfg env m st g)]
  refine ⟨?_, ?_, ?_⟩
  · exact (hfold (selectGroups cfg env items) ((group_items items).2) initRunState).1
  · exact (hfold (selectGroups cfg env items) ((group_items items).2) initRunState).2
  · have hsel : selectGroups { cfg with afterAction := "none" } env items =
        selectGroups cfg env items := rfl
    simp only [runMain, runGroups, hsel]
    rw [hsame (selectGroups cfg env items) ((group_items items).2) initRunState]

/-- Witness for C7 on a concrete run that creates a child record. -/
theorem move_without_group_id_witness :
    (Config.afterAction ⟨"exact", 2, 8, 25, "move", "", ""⟩ = "move" ∧
      Config.moveGroupId ⟨"exact", 2, 8, 25, "move", "", ""⟩ = "") ∧
    ((runMain ⟨"exact", 2, 8, 25, "move", "", ""⟩ emptyEnv itemsTriple).state.moveCalls = [] ∧
      (runMain ⟨"exact", 2, 8, 25, "move", "", ""⟩ emptyEnv itemsTriple).moved_originals = 0 ∧
      runMain ⟨"exact", 2, 8, 25, "move", "", ""⟩ emptyEnv itemsTriple =
        runMain ⟨"exact", 2, 8, 25, "none", "", ""⟩ emptyEnv itemsTriple) :=
  ⟨⟨rfl, rfl⟩,
   move_without_group_id ⟨"exact", 2, 8, 25, "move", "", ""⟩ emptyEnv itemsTriple rfl rfl⟩

/-!  Claim C8: created_subitems counts attempted creations. -/

/-- One loop iteration adds exactly the number of its pending names to the
created-subitems counter, whatever the remote create outcomes are. -/
theorem stepGroup_total_created (cfg : Config) (env : Env)
    (m : List (String × List Char)) (st : RunState) (g : GroupC) :
    (stepGroup cfg env m st g).total_created =
      st.total_created + (groupPending cfg env m g).length := by
  rcases hids : g.item_ids_oldest_first with _ | ⟨a, _ | ⟨b, rest⟩⟩
  · simp [stepGroup, groupPending, hids]
  · simp [stepGroup, groupPending, hids]
  · simp only [stepGroup, groupPending, hids]
    split_ifs <;> simp_all [List.isEmpty_iff]

/-- The loop's final created-subitems counter is the sum over the processed
groups of their pending-name counts. -/
theorem runGroups_total_created (cfg : Config) (env : Env)
    (m : List (String × List Char)) (gs : List GroupC) (st : RunState) :
    (gs.foldl (stepGroup cfg env m) st).total_created =
      st.total_created + (gs.map (fun g => (groupPending cfg env m g).length)).sum := by
  induction gs generalizing st with
  | nil => simp
  | cons g rest ih =>
    rw [List.foldl_cons, ih (stepGroup cfg env m st g), stepGroup_total_created]
    simp [Nat.add_assoc]

/-- Claim C8: the summary's `created_subitems` counter counts attempted
creations: it equals the total number of pending names over all selected
groups, and is insensitive to create failures — even when every batched and
every fallback single-item creation fails (so that no child record at all is
created), the counter is unchanged. -/
theorem created_subitems_counts_attempts :
    (∀ (cfg : Config) (env : Env) (items : List Item),
        (runMain cfg env items).created_subitems =
          ((selectGroups cfg env items).map
            (fun g => (groupPending cfg env ((group_items items).2) g).length)).sum) ∧
    (∀ names : List (List Char), create_subitems failOracle names = []) := by
  constructor
  · intro cfg env items
    simp only [runMain, runGroups]
    simpa [initRunState] using
      runGroups_total_created cfg env ((group_items items).2) (selectGroups cfg env items)
        initRunState
  · intro names
    have hfm : ∀ (l : List (Nat × List Char)),
        List.filterMap (fun _ => (none : Option (List Char))) l = [] := by
      intro l
      induction l with
      | nil => rfl
      | cons a t ih => simp [List.filterMap, ih]
    simp [create_subitems, failOracle, hfm]

/-- Witness for C8 is not required (no hypotheses), but a concrete run pins
the counting behaviour: two duplicate items yield one pending child whose
creation fails remotely, yet the counter shows 1. -/
theorem created_subitems_counts_attempts_demo :
    (runMain ⟨"exact", 2, 8, 25, "none", "", ""⟩ emptyEnv itemsTriple).created_subitems = 1 ∧
    create_subitems failOracle ["a".toList] = [] := by
  constructor
  · decide
  · decide

/-!  Claim C5: exact grouping partitions the input ids. -/

/-- Stable insertion permutes. -/
theorem insertLe_perm (le : α → α → Bool) (a : α) (l : List α) :
    (insertLe le a l).Perm (a :: l) := by
  induction l with
  | nil => exact List.Perm.refl _
  | cons b bs ih =>
    unfold insertLe
    split
    · exact List.Perm.refl _
    · exact (ih.cons b).trans (List.Perm.swap a b bs)

/-- Insertion sort permutes. -/
theorem insSort_perm (le : α → α → Bool) (l : List α) : (insSort le l).Perm l := by
  induction l with
  | nil => exact List.Perm.refl _
  | cons a as ih => exact (insertLe_perm le a (insSort le as)).trans (ih.cons a)

/-- Membership in the first-insertion-order key list. -/
theorem mem_firstKeys (shaped : List SItem) (seen : List (List Char)) (k : List Char) :
    k ∈ firstKeys seen shaped ↔ (k ∉ seen ∧ ∃ x ∈ shaped, x.subject_norm = k) := by
  induction shaped generalizing seen with
  | nil => simp [firstKeys]
  | cons x rest ih =>
    unfold firstKeys
    split
    · rename_i hmem
      rw [ih]
      constructor
      · rintro ⟨hk, y, hy, he⟩
        exact ⟨hk, y, List.mem_cons_of_mem _ hy, he⟩
      · rintro ⟨hk, y, hy, he⟩
        rcases List.mem_cons.mp hy with hxy | hy2
        · subst hxy
          exact absurd (he ▸ hmem) hk
        · exact ⟨hk, y, hy2, he⟩
    · rename_i hnmem
      rw [List.mem_cons, ih]
      constructor
      · rintro (rfl | ⟨hk, y, hy, he⟩)
        · exact ⟨hnmem, x, List.mem_cons_self x rest, rfl⟩
        · exact ⟨fun h => hk (List.mem_cons_of_mem _ h), y, List.mem_cons_of_mem _ hy, he⟩
      · rintro ⟨hk, y, hy, he⟩
        rcases List.mem_cons.mp hy with hxy | hy2
        · subst hxy
          exact Or.inl he.symm
        · by_cases hkx : k = x.subject_norm
          · exact Or.inl hkx
          · exact Or.inr ⟨by simp [List.mem_cons, hkx, hk], y, hy2, he⟩

/-- The first-insertion-order key list has no duplicates. -/
theorem firstKeys_nodup (shaped : List SItem) (seen : List (List Char)) :
    (firstKeys seen shaped).Nodup := by
  induction shaped generalizing seen with
  | nil => simp [firstKeys]
  | cons x rest ih =>
    unfold firstKeys
    split
    · exact ih seen
    · refine List.nodup_cons.mpr ⟨?_, ih _⟩
      intro hmem
      exact ((mem_firstKeys rest _ _).mp hmem).1 (List.mem_cons_self _ _)

/-- Claim C5, amended: the union of all exact groups' member ids is exactly
the set of input item ids (for every input); the member-id sets of distinct
groups are pairwise disjoint whenever the input ids are distinct (for inputs
with duplicate ids an id is repeated across groups, see the counterexample). -/
theorem group_items_partition (items : List Item) :
    (∀ idv : String,
        idv ∈ (group_items items).1.flatMap (fun g => g.item_ids_oldest_first) ↔
          idv ∈ items.map (fun it => it.id)) ∧
    ((items.map (fun it => it.id)).Nodup →
      List.Pairwise
        (fun g1 g2 => ∀ i ∈ g1.item_ids_oldest_first, i ∉ g2.item_ids_oldest_first)
        (group_items items).1) := by
  have hfst : (group_items items).1 =
      insSort groupLe ((firstKeys [] (items.map shapeItem)).map (fun k =>
        ⟨k, (membersOf (items.map shapeItem) k).map (fun x => x.id),
          (membersOf (items.map shapeItem) k).length⟩)) := rfl
  have hperm := insSort_perm groupLe ((firstKeys [] (items.map shapeItem)).map (fun k =>
    (⟨k, (membersOf (items.map shapeItem) k).map (fun x => x.id),
      (membersOf (items.map shapeItem) k).length⟩ : GroupC)))
  have hids : ∀ (k : List Char) (idv : String),
      idv ∈ (membersOf (items.map shapeItem) k).map (fun x => x.id) ↔
        ∃ x ∈ (items.map shapeItem), x.subject_norm = k ∧ x.id = idv := by
    intro k idv
    rw [List.mem_map]
    constructor
    · rintro ⟨x, hx, he⟩
      have hx2 := (insSort_perm memberLe _).mem_iff.mp hx
      have hx3 := List.mem_filter.mp hx2
      exact ⟨x, hx3.1, by simpa using hx3.2, he⟩
    · rintro ⟨x, hx, hsub, he⟩
      refine ⟨x, ?_, he⟩
      exact (insSort_perm memberLe _).mem_iff.mpr (List.mem_filter.mpr ⟨hx, by simpa using hsub⟩)
  constructor
  · intro idv
    rw [hfst, List.mem_flatMap]
    constructor
    · rintro ⟨g, hg, hid⟩
      have hg2 := hperm.mem_iff.mp hg
      obtain ⟨k, hk, rfl⟩ := List.mem_map.mp hg2
      obtain ⟨x, hx, _, hxid⟩ := (hids k idv).mp hid
      obtain ⟨it, hit, rfl⟩ := List.mem_map.mp hx
      exact List.mem_map.mpr ⟨it, hit, hxid⟩
    · intro hin
      obtain ⟨it, hit, rfl⟩ := List.mem_map.mp hin
      have hx : shapeItem it ∈ items.map shapeItem := List.mem_map.mpr ⟨it, hit, rfl⟩
      have hk : (shapeItem it).subject_norm ∈ firstKeys [] (items.map shapeItem) :=
        (mem_firstKeys _ _ _).mpr ⟨List.not_mem_nil _, shapeItem it, hx, rfl⟩
      refine ⟨_, hperm.mem_iff.mpr (List.mem_map.mpr ⟨(shapeItem it).subject_norm, hk, rfl⟩), ?_⟩
      exact (hids _ _).mpr ⟨shapeItem it, hx, rfl, rfl⟩
  · intro hnodup
    have hnodup2 : ((items.map shapeItem).map (fun x => x.id)).Nodup := by
      rw [List.map_map]
      exact hnodup
    rw [hfst]
    have hsymm : ∀ {g1 g2 : GroupC},
        (∀ i ∈ g1.item_ids_oldest_first, i ∉ g2.item_ids_oldest_first) →
          ∀ i ∈ g2.item_ids_oldest_first, i ∉ g1.item_ids_oldest_first := by
      intro g1 g2 h i hi2 hi1
      exact h i hi1 hi2
    rw [List.Perm.pairwise_iff hsymm hperm]
    rw [List.pairwise_map]
    have hkeys := firstKeys_nodup (items.map shapeItem) []
    refine List.Pairwise.imp ?_ hkeys
    intro k1 k2 hk12 i hi1 hi2
    obtain ⟨x, hx, hxs, hxid⟩ := (hids k1 i).mp hi1
    obtain ⟨y, hy, hys, hyid⟩ := (hids k2 i).mp hi2
    have hxy : x = y := List.inj_on_of_nodup_map hnodup2 hx hy (hxid.trans hyid.symm)
    exact hk12 (hxs.symm.trans (hxy ▸ hys))

/-- Witness for C5: three distinct-id items give a genuine partition. -/
theorem group_items_partition_witness :
    (itemsTriple.map (fun it => it.id)).Nodup ∧
    List.Pairwise
      (fun g1 g2 => ∀ i ∈ g1.item_ids_oldest_first, i ∉ g2.item_ids_oldest_first)
      (group_items itemsTriple).1 :=
  ⟨by decide, (group_items_partition itemsTriple).2 (by decide)⟩

/-- Counterexample for C5 as stated: with a duplicated input id the groups
of the two subjects both contain id "1", so the member-id sets of distinct
groups are not pairwise disjoint. -/
theorem group_items_partition_cex :
    ¬ List.Pairwise
        (fun g1 g2 => ∀ i ∈ g1.item_ids_oldest_first, i ∉ g2.item_ids_oldest_first)
        (group_items itemsDupId).1 := by
  intro h
  have h1 : (group_items itemsDupId).1 =
      [⟨"a".toList, ["1"], 1⟩, ⟨"b".toList, ["1"], 1⟩] := by decide
  rw [h1] at h
  have := List.rel_of_pairwise_cons h (List.mem_cons_self _ _)
  exact this "1" (by decide) (by decide)

/-!  Claim C1: the consolidation diff is conservative. -/

/-- Dropping a satisfying prefix never lengthens a list. -/
theorem length_dropWhile_le (p : α → Bool) (l : List α) :
    (l.dropWhile p).length ≤ l.length := by
  induction l with
  | nil => simp
  | cons a as ih =>
    rw [List.dropWhile_cons]
    split
    · exact Nat.le_succ_of_le ih
    · exact Nat.le_refl _

/-- A list that is its own `dropWhile` does not start with a satisfying
element. -/
theorem head_false_of_dropWhile_eq_self {p : α → Bool} {c : α} {rest : List α}
    (h : (c :: rest).dropWhile p = c :: rest) : p c = false := by
  rw [List.dropWhile_cons] at h
  by_cases hc : p c = true
  · rw [if_pos hc] at h
    have hlen := length_dropWhile_le p rest
    rw [h] at hlen
    simp at hlen
  · simpa using hc

/-- Members of a chunk come from the chunked list. -/
theorem mem_of_mem_chunksF {n fuel : Nat} {l c : List α} {x : α}
    (hc : c ∈ chunksF n fuel l) (hx : x ∈ c) : x ∈ l := by
  induction fuel generalizing l with
  | zero => cases l <;> simp [chunksF] at hc
  | succ f ih =>
    cases l with
    | nil => simp [chunksF] at hc
    | cons a as =>
      rw [chunksF] at hc
      rcases List.mem_cons.mp hc with rfl | hc2
      · exact List.take_subset _ _ hx
      · exact List.drop_subset _ _ (ih hc2)

/-- Python `strip` is idempotent. -/
theorem pyStrip_idem (s : List Char) : pyStrip (pyStrip s) = pyStrip s := by
  unfold pyStrip
  have hu : (s.dropWhile isPySpace).dropWhile isPySpace = s.dropWhile isPySpace :=
    List.dropWhile_idempotent _ _
  have hA : (((s.dropWhile isPySpace).rdropWhile isPySpace).dropWhile isPySpace) =
      (s.dropWhile isPySpace).rdropWhile isPySpace := by
    rcases h : (s.dropWhile isPySpace).rdropWhile isPySpace with _ | ⟨c, rest⟩
    · rfl
    · obtain ⟨t, ht⟩ := List.rdropWhile_prefix isPySpace (s.dropWhile isPySpace)
      rw [h] at ht
      have hc : isPySpace c = false := by
        have hcons : s.dropWhile isPySpace = c :: (rest ++ t) := by
          rw [← ht]
          simp
        apply @head_false_of_dropWhile_eq_self _ _ c (rest ++ t)
        rw [← hcons]
        exact hu
      rw [List.dropWhile_cons, hc]
      simp
  rw [hA, List.rdropWhile_idempotent]

/-- `_sanitize_name` fixes already-stripped nonempty names of length at
most 255. -/
theorem sanitize_name_eq_self (nm fb : List Char) (h1 : pyStrip nm = nm)
    (h2 : ¬ nm.isEmpty = true) (h3 : nm.length ≤ 255) : sanitize_name nm fb = nm := by
  simp only [sanitize_name]
  rw [h1, if_neg h2, if_neg (by omega)]

/-- The sanitize preamble of `create_subitems` keeps a list of stripped
nonempty names of length at most 255 unchanged. -/
theorem clean_names_eq_self (names : List (List Char))
    (h : ∀ nm ∈ names, pyStrip nm = nm ∧ ¬ nm.isEmpty = true ∧ nm.length ≤ 255) :
    clean_names names = names := by
  unfold clean_names
  have hmap : names.enum.map (fun p => sanitize_name p.2 ("Item ".toList ++ natToChars (p.1 + 1)))
      = names.enum.map Prod.snd := by
    apply List.map_congr_left
    intro p hp
    have hmem : p.2 ∈ names := by
      obtain ⟨i, x⟩ := p
      have hx := List.mem_enum hp
      rw [hx.2]
      exact List.getElem_mem _
    obtain ⟨ha, hb, hc⟩ := h p.2 hmem
    exact sanitize_name_eq_self _ _ ha hb hc
  rw [hmap, List.enum_map_snd]
  apply List.filter_eq_self.mpr
  intro a ha
  have := (h a ha).2.1
  simpa using this

/-- Every name actually created by `create_subitems` is one of its sanitized
inputs, whatever the remote outcomes are. -/
theorem mem_clean_of_mem_create (orc : CreateOracle) (names : List (List Char))
    (nm : List Char) (h : nm ∈ create_subitems orc names) : nm ∈ clean_names names := by
  unfold create_subitems at h
  rw [List.mem_flatMap] at h
  obtain ⟨p, hp, hnm⟩ := h
  have hchunk : p.2 ∈ chunks 20 (clean_names names) := by
    obtain ⟨i, c⟩ := p
    have hx := List.mem_enum hp
    rw [hx.2]
    exact List.getElem_mem _
  have hin : nm ∈ p.2 := by
    by_cases hb : orc.batchOk p.1 = true
    · rw [if_pos hb] at hnm
      exact hnm
    · rw [if_neg hb] at hnm
      rw [List.mem_filterMap] at hnm
      obtain ⟨q, hq, heq⟩ := hnm
      by_cases hs : orc.singleOk p.1 q.1 = true
      · rw [if_pos hs] at heq
        obtain ⟨i, c⟩ := q
        have hx := List.mem_enum hq
        have : c = nm := by simpa using heq
        rw [← this, hx.2]
        exact List.getElem_mem _
      · rw [if_neg hs] at heq
        cases heq
  exact mem_of_mem_chunksF hchunk hin

/-- What membership in the `pending` list means. -/
theorem mem_pendingOf (idToName : List (String × List Char)) (existing : List (List Char))
    (children : List String) (cid : String) (nm : List Char)
    (h : (cid, nm) ∈ pendingOf idToName existing children) :
    cid ∈ children ∧ nm = pyStrip (resolvedChildName idToName cid) ∧
      ¬ nm.isEmpty = true ∧ nm ∉ existing := by
  simp only [pendingOf] at h
  rw [List.mem_filterMap] at h
  obtain ⟨c, hc, heq⟩ := h
  split at heq
  · rename_i hcond
    injection heq with heq2
    injection heq2 with hcids hnms
    subst hcids
    rw [Bool.and_eq_true] at hcond
    refine ⟨hc, hnms.symm, ?_, ?_⟩
    · rw [← hnms]
      simpa using hcond.1
    · rw [← hnms]
      simpa using hcond.2
  · cases heq

/-- Claim C1, amended: a child record is never created when a child with
that exact name already exists under the parent, and only pending names are
created — provided every resolved child name is at most 255 characters once
stripped.  (Longer names are truncated by `_sanitize_name`, and the truncated
name may collide with an existing child record: see the counterexample.) -/
theorem consolidation_diff_conservative (orc : CreateOracle)
    (idToName : List (String × List Char)) (raw : List (List Char)) (children : List String)
    (hlen : ∀ cid ∈ children, (pyStrip (resolvedChildName idToName cid)).length ≤ 255) :
    ∀ nm ∈ createdForGroup orc idToName (get_existing_subitem_names raw) children,
      nm ∉ get_existing_subitem_names raw ∧
      nm ∈ (pendingOf idToName (get_existing_subitem_names raw) children).map
        (fun p => p.2) := by
  intro nm hnm
  have h1 := mem_clean_of_mem_create orc _ nm hnm
  have hgood : ∀ x ∈ (pendingOf idToName (get_existing_subitem_names raw) children).map
      (fun p => p.2), pyStrip x = x ∧ ¬ x.isEmpty = true ∧ x.length ≤ 255 := by
    intro x hx
    obtain ⟨p, hp, hpe⟩ := List.mem_map.mp hx
    obtain ⟨cid, y⟩ := p
    have hm := mem_pendingOf _ _ _ _ _ hp
    have hxy : x = y := hpe.symm
    subst hxy
    refine ⟨?_, hm.2.2.1, ?_⟩
    · rw [hm.2.1]
      exact pyStrip_idem _
    · rw [hm.2.1]
      exact hlen cid hm.1
  rw [clean_names_eq_self _ hgood] at h1
  refine ⟨?_, h1⟩
  obtain ⟨p, hp, hpe⟩ := List.mem_map.mp h1
  obtain ⟨cid, y⟩ := p
  have hm := mem_pendingOf _ _ _ _ _ hp
  have : nm = y := hpe.symm
  subst this
  exact hm.2.2.2

/-- Witness for C1 (amended): a short pending name is created and is indeed
absent from the existing-children set. -/
theorem consolidation_diff_conservative_witness :
    (∀ cid ∈ ["c2"],
        (pyStrip (resolvedChildName [("c2", "Hello".toList)] cid)).length ≤ 255) ∧
    ("Hello".toList ∉ get_existing_subitem_names ["Other".toList] ∧
      "Hello".toList ∈
        (pendingOf [("c2", "Hello".toList)] (get_existing_subitem_names ["Other".toList])
          ["c2"]).map (fun p => p.2)) :=
  ⟨by decide,
   consolidation_diff_conservative okOracle [("c2", "Hello".toList)] ["Other".toList] ["c2"]
     (by decide) "Hello".toList (by decide)⟩

/-- Counterexample for C1 as stated: a child whose stripped name is 256
characters long is pending (the full name is not among the existing names),
but `_sanitize_name` truncates it to 255 characters on creation, and a child
record with exactly that 255-character name already exists — so a child
record is created whose exact name is already in the existing-children set. -/
theorem consolidation_diff_cex :
    List.replicate 255 'A' ∈
      createdForGroup okOracle idToNameTrunc (get_existing_subitem_names existingTrunc) ["c"] ∧
    List.replicate 255 'A' ∈ get_existing_subitem_names existingTrunc := by
  set_option maxRecDepth 40000 in
  constructor
  · decide
  · decide

/-!  Normalization, part 1: character-level facts about `lowerChar`. -/

/-- `lowerChar` fixes every character that is not an uppercase letter. -/
theorem lowerChar_eq_self_of_not_upper (d : Char)
    (h : d ∉ "ABCDEFGHIJKLMNOPQRSTUVWXYZ".toList) : lowerChar d = d := by
  unfold lowerChar
  split <;> simp_all

/-- Lowercasing a character twice equals lowercasing it once. -/
theorem lowerChar_idem (d : Char) : lowerChar (lowerChar d) = lowerChar d := by
  by_cases h : d ∈ "ABCDEFGHIJKLMNOPQRSTUVWXYZ".toList
  · fin_cases h <;> rfl
  · rw [lowerChar_eq_self_of_not_upper d h, lowerChar_eq_self_of_not_upper d h]

/-- Lowercasing does not change whether a character is whitespace. -/
theorem isPySpace_lowerChar (d : Char) : isPySpace (lowerChar d) = isPySpace d := by
  by_cases h : d ∈ "ABCDEFGHIJKLMNOPQRSTUVWXYZ".toList
  · fin_cases h <;> rfl
  · rw [lowerChar_eq_self_of_not_upper d h]

/-- Only `:` lowercases to `:`. -/
theorem eq_colon_of_lowerChar (d : Char) (h : lowerChar d = ':') : d = ':' := by
  by_cases hm : d ∈ "ABCDEFGHIJKLMNOPQRSTUVWXYZ".toList
  · fin_cases hm <;> exact absurd h (by decide)
  · rw [lowerChar_eq_self_of_not_upper d hm] at h
    exact h

/-- Only `]` lowercases to `]`. -/
theorem eq_rbracket_of_lowerChar (d : Char) (h : lowerChar d = ']') : d = ']' := by
  by_cases hm : d ∈ "ABCDEFGHIJKLMNOPQRSTUVWXYZ".toList
  · fin_cases hm <;> exact absurd h (by decide)
  · rw [lowerChar_eq_self_of_not_upper d hm] at h
    exact h

/-- `dropWhile` of whitespace commutes with lowercasing. -/
theorem dropWhile_map_lowerChar (l : List Char) :
    (l.map lowerChar).dropWhile isPySpace = (l.dropWhile isPySpace).map lowerChar := by
  rw [List.dropWhile_map]
  have hcomp : (isPySpace ∘ lowerChar) = isPySpace := by
    funext c
    exact isPySpace_lowerChar c
  rw [hcomp]

/-- `rdropWhile` of whitespace commutes with lowercasing. -/
theorem rdropWhile_map_lowerChar (l : List Char) :
    (l.map lowerChar).rdropWhile isPySpace = (l.rdropWhile isPySpace).map lowerChar := by
  unfold List.rdropWhile
  rw [← List.map_reverse, List.dropWhile_map]
  have hcomp : (isPySpace ∘ lowerChar) = isPySpace := by
    funext c
    exact isPySpace_lowerChar c
  rw [hcomp, List.map_reverse]

/-- `pyStrip` commutes with lowercasing. -/
theorem pyStrip_map_lowerChar (l : List Char) :
    pyStrip (l.map lowerChar) = (pyStrip l).map lowerChar := by
  unfold pyStrip
  rw [dropWhile_map_lowerChar, rdropWhile_map_lowerChar]

/-!  Normalization, part 2: no reply-prefix match survives appends. -/

/-- `prefixReSub` misses exactly when no iteration matches after the leading
whitespace. -/
theorem prefixFree_iff (s : List Char) :
    prefixFree s ↔ prefixIter (s.dropWhile isPySpace) = none := by
  unfold prefixFree prefixReSub
  cases h : prefixIter (s.dropWhile isPySpace) <;> simp [h]

/-- No iteration matches the empty string. -/
theorem prefixIter_nil : prefixIter [] = none := rfl

/-- A token match extends along an appended suffix. -/
theorem stripTokenCI_append (tok a b r : List Char) (h : stripTokenCI tok a = some r) :
    stripTokenCI tok (a ++ b) = some (r ++ b) := by
  induction tok generalizing a r with
  | nil =>
    unfold stripTokenCI at h
    injection h with h2
    subst h2
    rfl
  | cons c tok ih =>
    cases a with
    | nil => exact absurd h (by simp [stripTokenCI])
    | cons d as =>
      rw [List.cons_append]
      unfold stripTokenCI at h ⊢
      split at h
      · rename_i hlc
        rw [if_pos hlc]
        exact ih as r h
      · cases h

/-- Evaluation of `punctAfterToken` when the whitespace-stripped remainder is
empty. -/
theorem punctAfterToken_eq_none (s : List Char) (hd : s.dropWhile isPySpace = []) :
    punctAfterToken s = none := by
  unfold punctAfterToken
  rw [hd]

/-- Evaluation of `punctAfterToken` when the whitespace-stripped remainder is
nonempty. -/
theorem punctAfterToken_eq (s : List Char) (c : Char) (rest : List Char)
    (hd : s.dropWhile isPySpace = c :: rest) :
    punctAfterToken s =
      if c = ':' || c = ']' then some (rest.dropWhile isPySpace) else none := by
  unfold punctAfterToken
  rw [hd]

/-- A punctuation match extends along an appended suffix. -/
theorem punctAfterToken_append (a b v : List Char) (h : punctAfterToken a = some v) :
    ∃ w, punctAfterToken (a ++ b) = some w := by
  rcases hd : a.dropWhile isPySpace with _ | ⟨c, rest⟩
  · rw [punctAfterToken_eq_none a hd] at h
    cases h
  · have hde : (a ++ b).dropWhile isPySpace = c :: (rest ++ b) := by
      rw [List.dropWhile_append, hd]
      simp
    rw [punctAfterToken_eq a c rest hd] at h
    rw [punctAfterToken_eq (a ++ b) c (rest ++ b) hde]
    split at h
    · rename_i hc
      exact ⟨(rest ++ b).dropWhile isPySpace, by rw [if_pos hc]⟩
    · cases h

/-- A whole iteration extends along an appended suffix. -/
theorem tryToken_append (tok a b v : List Char) (h : tryToken tok a = some v) :
    ∃ w, tryToken tok (a ++ b) = some w := by
  unfold tryToken at h ⊢
  cases hs : stripTokenCI tok a with
  | none => rw [hs] at h; cases h
  | some r =>
    rw [hs] at h
    rw [stripTokenCI_append tok a b r hs]
    exact punctAfterToken_append r b v h

/-- The alternation extends along an appended suffix. -/
theorem firstTokenHit_append (toks : List (List Char)) (a b v : List Char)
    (h : firstTokenHit toks a = some v) : ∃ w, firstTokenHit toks (a ++ b) = some w := by
  induction toks with
  | nil => cases h
  | cons tok toks ih =>
    unfold firstTokenHit at h ⊢
    cases h2 : tryToken tok (a ++ b) with
    | some w => exact ⟨w, rfl⟩
    | none =>
      cases ht : tryToken tok a with
      | some r =>
        obtain ⟨w, hw⟩ := tryToken_append tok a b r ht
        rw [hw] at h2
        cases h2
      | none =>
        rw [ht] at h
        exact ih h

/-- A prefix of a string with no `_PREFIX_RE` match has no match either. -/
theorem prefixFree_of_append (t rest : List Char) (h : prefixFree (t ++ rest)) :
    prefixFree t := by
  rw [prefixFree_iff] at h ⊢
  cases hi : prefixIter (t.dropWhile isPySpace) with
  | none => rfl
  | some v =>
    exfalso
    rcases hd : t.dropWhile isPySpace with _ | ⟨c, rest2⟩
    · rw [hd, prefixIter_nil] at hi
      cases hi
    · have hde : (t ++ rest).dropWhile isPySpace = t.dropWhile isPySpace ++ rest := by
        rw [List.dropWhile_append, hd]
        simp
      obtain ⟨w, hw⟩ := firstTokenHit_append replyTokens _ rest v hi
      rw [hde] at h
      rw [show prefixIter (t.dropWhile isPySpace ++ rest) = some w from hw] at h
      cases h

/-- `prefixFree` is preserved by `rdropWhile` with any predicate. -/
theorem prefixFree_rdropWhile (p : Char → Bool) (s : List Char) (h : prefixFree s) :
    prefixFree (s.rdropWhile p) := by
  obtain ⟨t, ht⟩ := List.rdropWhile_prefix p s
  rw [← ht] at h
  exact prefixFree_of_append _ t h

/-- `prefixFree` is preserved by dropping leading whitespace. -/
theorem prefixFree_dropWhile_ws (s : List Char) (h : prefixFree s) :
    prefixFree (s.dropWhile isPySpace) := by
  rw [prefixFree_iff] at h ⊢
  rw [List.dropWhile_idempotent]
  exact h

/-- `prefixFree` is preserved by `pyStrip`. -/
theorem prefixFree_pyStrip (s : List Char) (h : prefixFree s) : prefixFree (pyStrip s) :=
  prefixFree_rdropWhile _ _ (prefixFree_dropWhile_ws s h)

/-- `prefixFree` is preserved by truncation. -/
theorem prefixFree_take (n : Nat) (s : List Char) (h : prefixFree s) :
    prefixFree (s.take n) := by
  rw [← List.take_append_drop n s] at h
  exact prefixFree_of_append _ _ h

/-!  Normalization, part 3: no reply-prefix match is created by lowercasing. -/

/-- A token match on the lowercased string pulls back to the original (token
matching is already case-insensitive). -/
theorem stripTokenCI_map (tok a r : List Char)
    (h : stripTokenCI tok (a.map lowerChar) = some r) :
    ∃ r0, stripTokenCI tok a = some r0 ∧ r = r0.map lowerChar := by
  induction tok generalizing a r with
  | nil =>
    unfold stripTokenCI at h
    injection h with h2
    exact ⟨a, rfl, h2.symm⟩
  | cons c tok ih =>
    cases a with
    | nil => exact absurd h (by simp [stripTokenCI])
    | cons d as =>
      rw [List.map_cons] at h
      unfold stripTokenCI at h ⊢
      split at h
      · rename_i hlc
        rw [lowerChar_idem d] at hlc
        obtain ⟨r0, h1, h2⟩ := ih as r h
        refine ⟨r0, ?_, h2⟩
        rw [if_pos hlc]
        exact h1
      · cases h

/-- A punctuation match on the lowercased string pulls back. -/
theorem punctAfterToken_map (a v : List Char)
    (h : punctAfterToken (a.map lowerChar) = some v) : ∃ w, punctAfterToken a = some w := by
  rcases hd : a.dropWhile isPySpace with _ | ⟨c, rest⟩
  · have h0 : (a.map lowerChar).dropWhile isPySpace = [] := by
      rw [dropWhile_map_lowerChar, hd]
      rfl
    rw [punctAfterToken_eq_none _ h0] at h
    cases h
  · have h0 : (a.map lowerChar).dropWhile isPySpace = lowerChar c :: rest.map lowerChar := by
      rw [dropWhile_map_lowerChar, hd, List.map_cons]
    rw [punctAfterToken_eq _ _ _ h0] at h
    split at h
    · rename_i hcnd
      have hcnd2 : (c = ':' || c = ']') = true := by
        rcases Bool.or_eq_true _ _ |>.mp hcnd with h1 | h1
        · have h2 := eq_colon_of_lowerChar c (by simpa using h1)
          simp [h2]
        · have h2 := eq_rbracket_of_lowerChar c (by simpa using h1)
          simp [h2]
      rw [punctAfterToken_eq a c rest hd]
      exact ⟨_, by rw [if_pos hcnd2]⟩
    · cases h

/-- An iteration on the lowercased string pulls back. -/
theorem tryToken_map (tok a v : List Char) (h : tryToken tok (a.map lowerChar) = some v) :
    ∃ w, tryToken tok a = some w := by
  unfold tryToken at h ⊢
  cases hs : stripTokenCI tok (a.map lowerChar) with
  | none => rw [hs] at h; cases h
  | some r =>
    rw [hs] at h
    obtain ⟨r0, h1, h2⟩ := stripTokenCI_map tok a r hs
    rw [h1]
    subst h2
    exact punctAfterToken_map r0 v h

/-- The alternation on the lowercased string pulls back. -/
theorem firstTokenHit_map (toks : List (List Char)) (a v : List Char)
    (h : firstTokenHit toks (a.map lowerChar) = some v) :
    ∃ w, firstTokenHit toks a = some w := by
  induction toks with
  | nil => cases h
  | cons tok toks ih =>
    unfold firstTokenHit at h ⊢
    cases h2 : tryToken tok a with
    | some w => exact ⟨w, rfl⟩
    | none =>
      cases ht : tryToken tok (a.map lowerChar) with
      | some r =>
        obtain ⟨w, hw⟩ := tryToken_map tok a r ht
        rw [hw] at h2
        cases h2
      | none =>
        rw [ht] at h
        exact ih h

/-- `prefixFree` is preserved by lowercasing. -/
theorem prefixFree_map_lowerChar (s : List Char) (h : prefixFree s) :
    prefixFree (s.map lowerChar) := by
  rw [prefixFree_iff] at h ⊢
  rw [dropWhile_map_lowerChar]
  cases hi : prefixIter ((s.dropWhile isPySpace).map lowerChar) with
  | none => rfl
  | some v =>
    obtain ⟨w, hw⟩ := firstTokenHit_map replyTokens _ v hi
    have hw2 : prefixIter (s.dropWhile isPySpace) = some w := hw
    rw [h] at hw2
    cases hw2

/-!  Normalization, part 4: no reply-prefix match is created by whitespace
collapsing. -/

/-- `collapseWs` on a non-whitespace head. -/
theorem collapseWs_cons_not_ws (c : Char) (l : List Char) (h : isPySpace c = false) :
    collapseWs (c :: l) = c :: collapseWs l := by
  cases l with
  | nil => simp [collapseWs, h]
  | cons d rest => simp [collapseWs, h]

/-- `collapseWs` on a whitespace head: the whole leading run becomes one
space. -/
theorem collapseWs_cons_ws :
    ∀ (l : List Char) (c : Char), isPySpace c = true →
      collapseWs (c :: l) = ' ' :: collapseWs (l.dropWhile isPySpace) := by
  intro l
  induction l with
  | nil =>
    intro c hc
    simp [collapseWs, hc]
  | cons d rest ih =>
    intro c hc
    by_cases hd : isPySpace d = true
    · rw [show collapseWs (c :: d :: rest) = collapseWs (d :: rest) by
        simp [collapseWs, hc, hd]]
      rw [ih d hd, List.dropWhile_cons, if_pos hd]
    · have h1 : collapseWs (c :: d :: rest) = ' ' :: collapseWs (d :: rest) := by
        simp [collapseWs, hc, hd]
      rw [h1, List.dropWhile_cons, if_neg (by simp [hd])]

/-- `collapseWs` keeps a whitespace-dropped list whitespace-dropped. -/
theorem dropWhile_collapseWs_of_dropped (u : List Char) (hu : u.dropWhile isPySpace = u) :
    (collapseWs u).dropWhile isPySpace = collapseWs u := by
  cases u with
  | nil => rfl
  | cons d tail =>
    have hd : isPySpace d = false := head_false_of_dropWhile_eq_self hu
    rw [collapseWs_cons_not_ws d tail hd, List.dropWhile_cons, if_neg (by simp [hd])]

/-- Dropping leading whitespace commutes with collapsing. -/
theorem dropWhile_collapseWs (l : List Char) :
    (collapseWs l).dropWhile isPySpace = collapseWs (l.dropWhile isPySpace) := by
  cases l with
  | nil => rfl
  | cons c rest =>
    by_cases hc : isPySpace c = true
    · rw [collapseWs_cons_ws rest c hc, List.dropWhile_cons,
        if_pos (show isPySpace ' ' = true from rfl), List.dropWhile_cons, if_pos hc]
      exact dropWhile_collapseWs_of_dropped _ (List.dropWhile_idempotent _ _)
    · have hc2 : isPySpace c = false := by simpa using hc
      rw [collapseWs_cons_not_ws c rest hc2, List.dropWhile_cons, if_neg (by simp [hc2]),
        List.dropWhile_cons, if_neg (by simp [hc2]), collapseWs_cons_not_ws c rest hc2]

/-- A token match on the collapsed string pulls back (reply tokens contain no
whitespace characters). -/
theorem stripTokenCI_collapse (tok : List Char)
    (htok : ∀ c ∈ tok, isPySpace (lowerChar c) = false) :
    ∀ (a r : List Char), stripTokenCI tok (collapseWs a) = some r →
      ∃ r0, stripTokenCI tok a = some r0 ∧ r = collapseWs r0 := by
  induction tok with
  | nil =>
    intro a r h
    unfold stripTokenCI at h
    injection h with h2
    exact ⟨a, rfl, h2.symm⟩
  | cons c tok ih =>
    intro a r h
    cases a with
    | nil => exact absurd h (by simp [stripTokenCI, collapseWs])
    | cons d as =>
      by_cases hd : isPySpace d = true
      · exfalso
        rw [collapseWs_cons_ws as d hd] at h
        unfold stripTokenCI at h
        split at h
        · rename_i hlc
          have h1 : isPySpace (lowerChar c) = false := htok c (List.mem_cons_self _ _)
          rw [← hlc] at h1
          exact absurd h1 (by decide)
        · cases h
      · have hd2 : isPySpace d = false := by simpa using hd
        rw [collapseWs_cons_not_ws d as hd2] at h
        unfold stripTokenCI at h ⊢
        split at h
        · rename_i hlc
          obtain ⟨r0, h1, h2⟩ := ih (fun x hx => htok x (List.mem_cons_of_mem _ hx)) as r h
          refine ⟨r0, ?_, h2⟩
          rw [if_pos hlc]
          exact h1
        · cases h

/-- A punctuation match on the collapsed string pulls back. -/
theorem punctAfterToken_collapse (a v : List Char)
    (h : punctAfterToken (collapseWs a) = some v) : ∃ w, punctAfterToken a = some w := by
  rcases hd : a.dropWhile isPySpace with _ | ⟨c, rest⟩
  · have h0 : (collapseWs a).dropWhile isPySpace = [] := by
      rw [dropWhile_collapseWs, hd]
      rfl
    rw [punctAfterToken_eq_none _ h0] at h
    cases h
  · have hdc : isPySpace c = false := by
      apply @head_false_of_dropWhile_eq_self _ _ c rest
      rw [← hd]
      exact List.dropWhile_idempotent _ _
    have h0 : (collapseWs a).dropWhile isPySpace = c :: collapseWs rest := by
      rw [dropWhile_collapseWs, hd, collapseWs_cons_not_ws c rest hdc]
    rw [punctAfterToken_eq _ _ _ h0] at h
    split at h
    · rename_i hcnd
      rw [punctAfterToken_eq a c rest hd]
      exact ⟨_, by rw [if_pos hcnd]⟩
    · cases h

/-- An iteration on the collapsed string pulls back. -/
theorem tryToken_collapse (tok : List Char)
    (htok : ∀ c ∈ tok, isPySpace (lowerChar c) = false) (a v : List Char)
    (h : tryToken tok (collapseWs a) = some v) : ∃ w, tryToken tok a = some w := by
  unfold tryToken at h ⊢
  cases hs : stripTokenCI tok (collapseWs a) with
  | none => rw [hs] at h; cases h
  | some r =>
    rw [hs] at h
    obtain ⟨r0, h1, h2⟩ := stripTokenCI_collapse tok htok a r hs
    rw [h1]
    subst h2
    exact punctAfterToken_collapse r0 v h

/-- The alternation on the collapsed string pulls back. -/
theorem firstTokenHit_collapse (toks : List (List Char))
    (htoks : ∀ tok ∈ toks, ∀ c ∈ tok, isPySpace (lowerChar c) = false) (a v : List Char)
    (h : firstTokenHit toks (collapseWs a) = some v) :
    ∃ w, firstTokenHit toks a = some w := by
  induction toks with
  | nil => cases h
  | cons tok toks ih =>
    unfold firstTokenHit at h ⊢
    cases h2 : tryToken tok a with
    | some w => exact ⟨w, rfl⟩
    | none =>
      cases ht : tryToken tok (collapseWs a) with
      | some r =>
        obtain ⟨w, hw⟩ := tryToken_collapse tok (htoks tok (List.mem_cons_self _ _)) a r ht
        rw [hw] at h2
        cases h2
      | none =>
        rw [ht] at h
        exact ih (fun t htm => htoks t (List.mem_cons_of_mem _ htm)) h

/-- `prefixFree` is preserved by whitespace collapsing. -/
theorem prefixFree_collapseWs (s : List Char) (h : prefixFree s) :
    prefixFree (collapseWs s) := by
  rw [prefixFree_iff] at h ⊢
  rw [dropWhile_collapseWs]
  cases hi : prefixIter (collapseWs (s.dropWhile isPySpace)) with
  | none => rfl
  | some v =>
    obtain ⟨w, hw⟩ := firstTokenHit_collapse replyTokens (by decide) _ v hi
    have hw2 : prefixIter (s.dropWhile isPySpace) = some w := hw
    rw [h] at hw2
    cases hw2

/-!  Normalization, part 5: the substitutions shrink, so the loops reach
fixed points. -/

/-- A token match consumes exactly the token length. -/
theorem stripTokenCI_length (tok a r : List Char) (h : stripTokenCI tok a = some r) :
    a.length = tok.length + r.length := by
  induction tok generalizing a r with
  | nil =>
    unfold stripTokenCI at h
    injection h with h2
    subst h2
    simp
  | cons c tok ih =>
    cases a with
    | nil => exact absurd h (by simp [stripTokenCI])
    | cons d as =>
      unfold stripTokenCI at h
      split at h
      · have h2 := ih as r h
        simp only [List.length_cons]
        omega
      · cases h

/-- A punctuation match consumes at least one character. -/
theorem punctAfterToken_length_lt (a v : List Char) (h : punctAfterToken a = some v) :
    v.length < a.length := by
  rcases hd : a.dropWhile isPySpace with _ | ⟨c, rest⟩
  · rw [punctAfterToken_eq_none a hd] at h
    cases h
  · rw [punctAfterToken_eq a c rest hd] at h
    split at h
    · injection h with h2
      subst h2
      have h3 := length_dropWhile_le isPySpace rest
      have h4 : (c :: rest).length ≤ a.length := by
        rw [← hd]
        exact length_dropWhile_le _ _
      simp only [List.length_cons] at h4
      omega
    · cases h

/-- A whole iteration strictly shrinks the string. -/
theorem tryToken_length_lt (tok a v : List Char) (htok : tok ≠ [])
    (h : tryToken tok a = some v) : v.length < a.length := by
  unfold tryToken at h
  cases hs : stripTokenCI tok a with
  | none => rw [hs] at h; cases h
  | some r =>
    rw [hs] at h
    have h1 := stripTokenCI_length tok a r hs
    have h2 := punctAfterToken_length_lt r v h
    have h3 : 0 < tok.length := by
      cases tok
      · exact absurd rfl htok
      · simp
    omega

/-- The alternation strictly shrinks the string. -/
theorem firstTokenHit_length_lt (toks : List (List Char)) (a v : List Char)
    (htoks : ∀ t ∈ toks, t ≠ []) (h : firstTokenHit toks a = some v) :
    v.length < a.length := by
  induction toks with
  | nil => cases h
  | cons tok toks ih =>
    unfold firstTokenHit at h
    cases ht : tryToken tok a with
    | some r =>
      rw [ht] at h
      injection h with h2
      subst h2
      exact tryToken_length_lt tok a _ (htoks tok (List.mem_cons_self _ _)) ht
    | none =>
      rw [ht] at h
      exact ih (fun t htm => htoks t (List.mem_cons_of_mem _ htm)) h

/-- One `_PREFIX_RE` iteration strictly shrinks the string. -/
theorem prefixIter_length_lt (a v : List Char) (h : prefixIter a = some v) :
    v.length < a.length :=
  firstTokenHit_length_lt replyTokens a v (by decide) h

/-- Greedy iteration never lengthens the string. -/
theorem prefixIters_length_le (fuel : Nat) : ∀ s : List Char,
    (prefixIters fuel s).length ≤ s.length := by
  induction fuel with
  | zero => intro s; exact Nat.le_refl _
  | succ f ih =>
    intro s
    unfold prefixIters
    cases hi : prefixIter s with
    | none => exact Nat.le_refl _
    | some r => exact le_trans (ih r) (le_of_lt (prefixIter_length_lt s r hi))

/-- A `_PREFIX_RE` substitution strictly shrinks the string. -/
theorem prefixReSub_length_lt (s n : List Char) (h : prefixReSub s = some n) :
    n.length < s.length := by
  unfold prefixReSub at h
  cases hi : prefixIter (s.dropWhile isPySpace) with
  | none => rw [hi] at h; cases h
  | some r =>
    rw [hi] at h
    injection h with h2
    subst h2
    have h1 := prefixIters_length_le r.length r
    have h2 := prefixIter_length_lt _ _ hi
    have h3 := length_dropWhile_le isPySpace s
    omega

/-- `pyStrip` never lengthens the string. -/
theorem pyStrip_length_le (s : List Char) : (pyStrip s).length ≤ s.length := by
  unfold pyStrip
  exact le_trans (List.rdropWhile_prefix _ _).length_le (length_dropWhile_le _ _)

/-- With enough fuel the `_PREFIX_RE` loop reaches a fixed point. -/
theorem prefixLoopF_free (fuel : Nat) : ∀ s : List Char, s.length ≤ fuel →
    prefixFree (prefixLoopF fuel s) := by
  induction fuel with
  | zero =>
    intro s hs
    have h0 : s = [] := List.eq_nil_of_length_eq_zero (Nat.le_zero.mp hs)
    subst h0
    exact rfl
  | succ f ih =>
    intro s hs
    unfold prefixLoopF
    cases h : prefixReSub s with
    | none => exact h
    | some n =>
      apply ih
      have h1 := prefixReSub_length_lt s n h
      have h2 := pyStrip_length_le n
      omega

/-- The `_PREFIX_RE` loop output has no reply-prefix match. -/
theorem prefixLoop_free (s : List Char) : prefixFree (prefixLoop s) :=
  prefixLoopF_free s.length s (Nat.le_refl _)

/-- The trailing-qualifier scan removes a nonempty suffix. -/
theorem trailQualScan_decomp (l : List Char) : ∀ (seen n : List Char),
    trailQualScan seen l = some n → ∃ rest, seen.reverse ++ l = n ++ rest ∧ rest ≠ [] := by
  induction l with
  | nil => intro seen n h; cases h
  | cons c ls ih =>
    intro seen n h
    unfold trailQualScan at h
    split at h
    · injection h with h2
      subst h2
      refine ⟨(seen.takeWhile isPySpace).reverse ++ (c :: ls), ?_, by simp⟩
      rw [← List.append_assoc]
      congr 1
      rw [← List.reverse_append, List.takeWhile_append_dropWhile]
    · obtain ⟨rest, h1, h2⟩ := ih (c :: seen) n h
      refine ⟨rest, ?_, h2⟩
      rw [← h1]
      simp

/-- A `_TRAILING_PARENS_RE` substitution keeps a strict prefix of the
string. -/
theorem trailQualSub_decomp (s n : List Char) (h : trailQualSub s = some n) :
    ∃ rest, s = n ++ rest ∧ rest ≠ [] := by
  obtain ⟨rest, h1, h2⟩ := trailQualScan_decomp s [] n h
  exact ⟨rest, by simpa using h1, h2⟩

/-- A `_TRAILING_PARENS_RE` substitution strictly shrinks the string. -/
theorem trailQualSub_length_lt (s n : List Char) (h : trailQualSub s = some n) :
    n.length < s.length := by
  obtain ⟨rest, h1, h2⟩ := trailQualSub_decomp s n h
  subst h1
  have h3 : rest.length ≠ 0 := by
    intro h4
    exact h2 (List.eq_nil_of_length_eq_zero h4)
  simp only [List.length_append]
  omega

/-- `prefixFree` survives one trailing-qualifier substitution. -/
theorem prefixFree_trailQualSub (s n : List Char) (h : trailQualSub s = some n)
    (hf : prefixFree s) : prefixFree n := by
  obtain ⟨rest, h1, _⟩ := trailQualSub_decomp s n h
  rw [h1] at hf
  exact prefixFree_of_append n rest hf

/-- `prefixFree` survives the trailing-qualifier loop. -/
theorem trailLoopF_prefixFree (fuel : Nat) : ∀ s : List Char, prefixFree s →
    prefixFree (trailLoopF fuel s) := by
  induction fuel with
  | zero => intro s h; exact h
  | succ f ih =>
    intro s h
    unfold trailLoopF
    cases ht : trailQualSub s with
    | none => exact h
    | some n => exact ih _ (prefixFree_pyStrip _ (prefixFree_trailQualSub s n ht h))

/-!  Normalization, part 6: the normalized subject never starts with a
reply/forward prefix. -/

/-- After `normalize_subject`, the reply-prefix regex no longer matches. -/
theorem normalize_prefixFree (s : List Char) : prefixFree (normalize_subject s) := by
  unfold normalize_subject
  split
  · exact rfl
  · show prefixFree
      ((pyStrip (dropTrailPunct (pyStrip (collapseWs
        (trailLoop (prefixLoop (bracketLoop (pyStrip s)))))))).map lowerChar)
    have h3 : prefixFree (prefixLoop (bracketLoop (pyStrip s))) := prefixLoop_free _
    have h4 : prefixFree (trailLoop (prefixLoop (bracketLoop (pyStrip s)))) :=
      trailLoopF_prefixFree _ _ h3
    have h5 := prefixFree_collapseWs _ h4
    have h6 := prefixFree_pyStrip _ h5
    have h7 : prefixFree (dropTrailPunct (pyStrip (collapseWs
        (trailLoop (prefixLoop (bracketLoop (pyStrip s))))))) :=
      prefixFree_rdropWhile isTrailPunct _ h6
    have h8 := prefixFree_pyStrip _ h7
    exact prefixFree_map_lowerChar _ h8

/-- Claim C6, amended: the code strips leading bracketed tags to a fixed
point and THEN reply/forward prefixes to a fixed point (sequentially, not
interleaved to a joint fixed point).  For every input, re-running the
reply/forward-prefix stripping step on the normalized result changes
nothing; the result may however still begin with a bracketed tag (see the
counterexample). -/
theorem normalize_no_reply_token_at_front (s : List Char) :
    prefixReSub (normalize_subject s) = none :=
  normalize_prefixFree s

/-- Counterexample for C6 as stated: a reply prefix followed by a bracketed
tag normalizes to a string that still begins with a bracketed tag, so
re-running the bracket-stripping step would change the result — the two
stripping steps are not interleaved to a joint fixed point. -/
theorem normalize_interleave_cex :
    normalize_subject "re: [x] y".toList = "[x] y".toList ∧
    bracketTagSub (normalize_subject "re: [x] y".toList) ≠ none := by
  constructor
  · decide
  · decide

/-!  Normalization, part 7: idempotence on bracket-free, qualifier-free,
punctuation-free normal forms (claim C2). -/

/-- The tail of a collapsed string is collapsed. -/
theorem collapsedB_tail {c : Char} {l : List Char} (h : collapsedB (c :: l) = true) :
    collapsedB l = true := by
  simp only [collapsedB, Bool.and_eq_true] at h
  exact h.2

/-- Prepending a non-whitespace character keeps a string collapsed. -/
theorem collapsedB_cons_not_ws {c : Char} {l : List Char} (hc : isPySpace c = false)
    (hl : collapsedB l = true) : collapsedB (c :: l) = true := by
  simp [collapsedB, hc, hl]

/-- Prepending a single space before a non-whitespace head keeps a string
collapsed. -/
theorem collapsedB_cons_space {l : List Char} (hl : collapsedB l = true)
    (hhead : ∀ d, l.head? = some d → isPySpace d = false) :
    collapsedB (' ' :: l) = true := by
  simp only [collapsedB, Bool.and_eq_true]
  refine ⟨?_, hl⟩
  cases hh : l.head? with
  | none => simp
  | some d => simp [hhead d hh]

/-- The output of `collapseWs` is collapsed. -/
theorem collapsedB_collapseWs (k : Nat) : ∀ l : List Char, l.length ≤ k →
    collapsedB (collapseWs l) = true := by
  induction k with
  | zero =>
    intro l hl
    have h0 : l = [] := List.eq_nil_of_length_eq_zero (Nat.le_zero.mp hl)
    subst h0
    rfl
  | succ n ih =>
    intro l hl
    cases l with
    | nil => rfl
    | cons c rest =>
      simp only [List.length_cons] at hl
      by_cases hc : isPySpace c = true
      · rw [collapseWs_cons_ws rest c hc]
        apply collapsedB_cons_space
        · apply ih
          have := length_dropWhile_le isPySpace rest
          omega
        · intro d hd
          rcases hu : rest.dropWhile isPySpace with _ | ⟨e, t⟩
          · rw [hu] at hd
            cases hd
          · have he : isPySpace e = false := by
              apply @head_false_of_dropWhile_eq_self _ _ e t
              rw [← hu]
              exact List.dropWhile_idempotent _ _
            rw [hu, collapseWs_cons_not_ws e t he] at hd
            have hde : e = d := by simpa using hd
            rw [← hde]
            exact he
      · have hc2 : isPySpace c = false := by simpa using hc
        rw [collapseWs_cons_not_ws c rest hc2]
        apply collapsedB_cons_not_ws hc2
        apply ih
        omega

/-- A prefix of a collapsed string is collapsed. -/
theorem collapsedB_append_left : ∀ (a b : List Char), collapsedB (a ++ b) = true →
    collapsedB a = true := by
  intro a
  induction a with
  | nil => intro b h; rfl
  | cons c a2 ih =>
    intro b h
    rw [List.cons_append] at h
    have h3 := ih b (collapsedB_tail h)
    simp only [collapsedB, Bool.and_eq_true] at h ⊢
    refine ⟨?_, h3⟩
    cases a2 with
    | nil =>
      rcases (Bool.or_eq_true _ _).mp h.1 with h4 | h4
      · simp [h4]
      · rw [Bool.and_eq_true] at h4
        simp [h4.1]
    | cons e a3 => simpa using h.1

/-- `dropWhile` keeps a string collapsed. -/
theorem collapsedB_dropWhile (p : Char → Bool) : ∀ l : List Char, collapsedB l = true →
    collapsedB (l.dropWhile p) = true := by
  intro l
  induction l with
  | nil => intro h; exact h
  | cons c rest ih =>
    intro h
    rw [List.dropWhile_cons]
    split
    · exact ih (collapsedB_tail h)
    · exact h

/-- `rdropWhile` keeps a string collapsed. -/
theorem collapsedB_rdropWhile (p : Char → Bool) (l : List Char)
    (h : collapsedB l = true) : collapsedB (l.rdropWhile p) = true := by
  obtain ⟨t, ht⟩ := List.rdropWhile_prefix p l
  apply collapsedB_append_left _ t
  rw [ht]
  exact h

/-- Only the space character lowercases to a space. -/
theorem eq_space_of_lowerChar (d : Char) (h : lowerChar d = ' ') : d = ' ' := by
  by_cases hm : d ∈ "ABCDEFGHIJKLMNOPQRSTUVWXYZ".toList
  · fin_cases hm <;> exact absurd h (by decide)
  · rw [lowerChar_eq_self_of_not_upper d hm] at h
    exact h

/-- Lowercasing keeps a string collapsed. -/
theorem collapsedB_map_lowerChar : ∀ l : List Char, collapsedB l = true →
    collapsedB (l.map lowerChar) = true := by
  intro l
  induction l with
  | nil => intro h; rfl
  | cons c rest ih =>
    intro h
    rw [List.map_cons]
    simp only [collapsedB, Bool.and_eq_true] at h ⊢
    refine ⟨?_, ih h.2⟩
    rcases (Bool.or_eq_true _ _).mp h.1 with h4 | h4
    · apply (Bool.or_eq_true _ _).mpr
      left
      rw [isPySpace_lowerChar]
      exact h4
    · rw [Bool.and_eq_true] at h4
      have hcs : c = ' ' := by simpa using h4.1
      apply (Bool.or_eq_true _ _).mpr
      right
      rw [Bool.and_eq_true]
      constructor
      · rw [hcs]
        decide
      · cases rest with
        | nil => rfl
        | cons d rest2 =>
          have hd : isPySpace d = false := by simpa using h4.2
          simp [isPySpace_lowerChar, hd]

/-- A collapsed string is a `collapseWs` fixed point. -/
theorem collapseWs_eq_self_of_collapsedB : ∀ l : List Char, collapsedB l = true →
    collapseWs l = l := by
  intro l
  induction l with
  | nil => intro h; rfl
  | cons c rest ih =>
    intro h
    have h2 := collapsedB_tail h
    by_cases hc : isPySpace c = true
    · simp only [collapsedB, Bool.and_eq_true] at h
      rcases (Bool.or_eq_true _ _).mp h.1 with h4 | h4
      · rw [hc] at h4
        exact absurd h4 (by decide)
      · rw [Bool.and_eq_true] at h4
        have hcsp : c = ' ' := by simpa using h4.1
        rw [collapseWs_cons_ws rest c hc]
        cases rest with
        | nil => simp [hcsp, collapseWs]
        | cons d rest2 =>
          have hd : isPySpace d = false := by simpa using h4.2
          rw [List.dropWhile_cons, if_neg (by simp [hd]), ih h2, hcsp]
    · have hc2 : isPySpace c = false := by simpa using hc
      rw [collapseWs_cons_not_ws c rest hc2, ih h2]

/-- The bracket loop is the identity when the regex does not match. -/
theorem bracketLoop_of_none (s : List Char) (h : bracketTagSub s = none) :
    bracketLoop s = s := by
  unfold bracketLoop
  cases hl : s.length with
  | zero => rfl
  | succ k => simp only [bracketLoopF, h]

/-- The prefix loop is the identity at a `prefixFree` string. -/
theorem prefixLoop_of_free (s : List Char) (h : prefixFree s) : prefixLoop s = s := by
  unfold prefixLoop
  cases hl : s.length with
  | zero => rfl
  | succ k => simp only [prefixLoopF, show prefixReSub s = none from h]

/-- The trailing-qualifier loop is the identity when the regex does not
match. -/
theorem trailLoop_of_none (s : List Char) (h : trailQualSub s = none) :
    trailLoop s = s := by
  unfold trailLoop
  cases hl : s.length with
  | zero => rfl
  | succ k => simp only [trailLoopF, h]

/-- The normalized subject is either empty or of the post-processing shape. -/
theorem normalize_subject_form (s : List Char) :
    normalize_subject s = [] ∨
    ∃ z, normalize_subject s =
      (pyStrip (dropTrailPunct (pyStrip (collapseWs z)))).map lowerChar := by
  unfold normalize_subject
  split
  · exact Or.inl rfl
  · exact Or.inr ⟨_, rfl⟩

/-- The normalized subject is stripped. -/
theorem normalize_subject_stripped (s : List Char) :
    pyStrip (normalize_subject s) = normalize_subject s := by
  rcases normalize_subject_form s with h | ⟨z, h⟩
  · rw [h]
    rfl
  · rw [h, pyStrip_map_lowerChar, pyStrip_idem]

/-- The normalized subject is collapsed. -/
theorem normalize_subject_collapsed (s : List Char) :
    collapseWs (normalize_subject s) = normalize_subject s := by
  rcases normalize_subject_form s with h | ⟨z, h⟩
  · rw [h]
    rfl
  · rw [h]
    apply collapseWs_eq_self_of_collapsedB
    apply collapsedB_map_lowerChar
    unfold pyStrip dropTrailPunct
    apply collapsedB_rdropWhile
    apply collapsedB_dropWhile
    apply collapsedB_rdropWhile
    apply collapsedB_rdropWhile
    apply collapsedB_dropWhile
    exact collapsedB_collapseWs z.length z (Nat.le_refl _)

/-- The normalized subject is lowercase. -/
theorem normalize_subject_lower (s : List Char) :
    (normalize_subject s).map lowerChar = normalize_subject s := by
  rcases normalize_subject_form s with h | ⟨z, h⟩
  · rw [h]
    rfl
  · rw [h, List.map_map]
    apply List.map_congr_left
    intro a _
    exact lowerChar_idem a

/-- Claim C2, amended: `normalize_subject` is idempotent at every input
whose normalized result has no leading bracketed tag, no trailing
parenthesised/bracketed/braced qualifier, and no trailing `-`/`:`/`|` run.
(The counterexample shows idempotence fails without these conditions: a
second pass can strip further.) -/
theorem normalize_idempotent_amended (s : List Char)
    (h1 : bracketTagSub (normalize_subject s) = none)
    (h2 : trailQualSub (normalize_subject s) = none)
    (h3 : dropTrailPunct (normalize_subject s) = normalize_subject s) :
    normalize_subject (normalize_subject s) = normalize_subject s := by
  have hstrip := normalize_subject_stripped s
  have hcoll := normalize_subject_collapsed s
  have hlower := normalize_subject_lower s
  have hpf : prefixFree (normalize_subject s) := normalize_prefixFree s
  by_cases hemp : (normalize_subject s).isEmpty = true
  · have h0 : normalize_subject s = [] := by
      cases hn : normalize_subject s
      · rfl
      · rw [hn] at hemp
        simp at hemp
    rw [h0]
    rfl
  · have hnorm : ∀ y : List Char, ¬ y.isEmpty = true → normalize_subject y =
        (pyStrip (dropTrailPunct (pyStrip (collapseWs (trailLoop (prefixLoop
          (bracketLoop (pyStrip y)))))))).map lowerChar := by
      intro y hy
      unfold normalize_subject
      rw [if_neg hy]
    rw [hnorm (normalize_subject s) hemp, hstrip, bracketLoop_of_none _ h1,
      prefixLoop_of_free _ hpf, trailLoop_of_none _ h2, hcoll, hstrip, h3, hstrip, hlower]

/-- Witness for C2 (amended) at a reply-prefixed subject. -/
theorem normalize_idempotent_amended_witness :
    (bracketTagSub (normalize_subject "RE: Hello World".toList) = none ∧
      trailQualSub (normalize_subject "RE: Hello World".toList) = none ∧
      dropTrailPunct (normalize_subject "RE: Hello World".toList) =
        normalize_subject "RE: Hello World".toList) ∧
    normalize_subject (normalize_subject "RE: Hello World".toList) =
      normalize_subject "RE: Hello World".toList :=
  ⟨⟨by decide, by decide, by decide⟩,
   normalize_idempotent_amended "RE: Hello World".toList (by decide) (by decide) (by decide)⟩

/-- Counterexample for C2 as stated: stripping the trailing dash of
`"(x)-"` exposes a trailing qualifier that only a second pass removes, so
normalization is not idempotent on all inputs. -/
theorem normalize_idempotent_cex :
    normalize_subject (normalize_subject "(x)-".toList) ≠
      normalize_subject "(x)-".toList := by
  decide
